import Mathlib

/-!
Verification of the ramp-discovery and ramp-wall-placement core of
`sc2/game_info.py` (classes `Ramp` and `GameInfo`).

Grid points are embedded as `ℤ × ℤ`, terrain heights as `ℤ`, centroid
coordinates as `ℚ`, and the derived wall-placement geometry as exact real
coordinates (`ℝ × ℝ`).  Python sets are embedded as `Finset`s; wherever the
source enumerates a set (`list(s)`, `s.pop()`, `next(iter(s))`) the embedding
enumerates it in a fixed lexicographic order, which is one of the enumeration
orders Python may produce; none of the verified properties depend on the
choice of enumeration order.
-/

namespace SC2

abbrev Pt := ℤ × ℤ

/-- Lexicographic order on grid points, used as the canonical enumeration
order for embedded Python sets. -/
def ptle (p q : Pt) : Prop :=
  p.1 < q.1 ∨ (p.1 = q.1 ∧ p.2 ≤ q.2)

instance : DecidableRel ptle := fun p q => by
  unfold ptle; exact inferInstance

instance : IsTrans Pt ptle where
  trans p q r hpq hqr := by
    rcases hpq with h | ⟨h1, h2⟩ <;> rcases hqr with h' | ⟨h1', h2'⟩ <;>
      simp only [ptle] <;> omega

instance : IsAntisymm Pt ptle where
  antisymm p q hpq hqp := by
    rcases hpq with h | ⟨h1, h2⟩ <;> rcases hqp with h' | ⟨h1', h2'⟩ <;>
      [omega; omega; omega; exact Prod.ext h1 (le_antisymm h2 h2')]

instance : IsTotal Pt ptle where
  total p q := by unfold ptle; omega

instance : IsRefl Pt ptle where
  refl p := by unfold ptle; omega

/-- Ascending insertion into a `ptle`-sorted list. -/
def insertAsc (x : Pt) : List Pt → List Pt
  | [] => [x]
  | y :: ys => if ptle x y then x :: y :: ys else y :: insertAsc x ys

/-- Insertion sort by `ptle`; structural recursion, so that concrete
enumerations reduce inside the kernel. -/
def insSort : List Pt → List Pt
  | [] => []
  | x :: xs => insertAsc x (insSort xs)

theorem perm_insertAsc (x : Pt) (l : List Pt) :
    List.Perm (insertAsc x l) (x :: l) := by
  induction l with
  | nil => simp [insertAsc]
  | cons y ys ih =>
      by_cases hxy : ptle x y
      · simp [insertAsc, hxy]
      · rw [insertAsc, if_neg hxy]
        exact (List.Perm.cons y ih).trans (List.Perm.swap x y ys)

theorem perm_insSort (l : List Pt) : List.Perm (insSort l) l := by
  induction l with
  | nil => simp [insSort]
  | cons x xs ih =>
      exact (perm_insertAsc x (insSort xs)).trans (List.Perm.cons x ih)

theorem mem_insertAsc (x a : Pt) (l : List Pt) :
    a ∈ insertAsc x l ↔ a = x ∨ a ∈ l := by
  rw [(perm_insertAsc x l).mem_iff, List.mem_cons]

theorem sorted_insertAsc (x : Pt) (l : List Pt)
    (hl : List.Pairwise ptle l) : List.Pairwise ptle (insertAsc x l) := by
  induction l with
  | nil => simp [insertAsc, List.pairwise_singleton]
  | cons y ys ih =>
      by_cases hxy : ptle x y
      · rw [insertAsc, if_pos hxy]
        refine List.Pairwise.cons ?_ hl
        intro b hb
        rcases List.mem_cons.mp hb with hb | hb
        · exact hb ▸ hxy
        · exact Trans.trans hxy (List.rel_of_pairwise_cons hl hb)
      · rw [insertAsc, if_neg hxy]
        have hyx : ptle y x := (IsTotal.total x y).resolve_left hxy
        refine List.Pairwise.cons ?_ (ih (List.Pairwise.of_cons hl))
        intro b hb
        rcases List.mem_cons.mp ((perm_insertAsc x ys).mem_iff.mp hb) with hb | hb
        · exact hb ▸ hyx
        · exact List.rel_of_pairwise_cons hl hb

theorem sorted_insSort (l : List Pt) : List.Pairwise ptle (insSort l) := by
  induction l with
  | nil => simp [insSort]
  | cons x xs ih => exact sorted_insertAsc x (insSort xs) ih

theorem insSort_eq_of_perm {l₁ l₂ : List Pt} (h : List.Perm l₁ l₂) :
    insSort l₁ = insSort l₂ :=
  List.eq_of_perm_of_sorted
    (((perm_insSort l₁).trans h).trans (perm_insSort l₂).symm)
    (sorted_insSort l₁) (sorted_insSort l₂)

/-- Canonical enumeration of an embedded Python set: its elements in
ascending `ptle` order. -/
def enum (s : Finset Pt) : List Pt :=
  Quot.liftOn s.val insSort (fun _ _ h => insSort_eq_of_perm h)

theorem enum_coe (s : Finset Pt) :
    ((enum s : List Pt) : Multiset Pt) = s.val := by
  rcases s with ⟨val, nd⟩
  induction val using Quot.ind with
  | _ l => exact Quot.sound (perm_insSort l)

theorem enum_mem (s : Finset Pt) (p : Pt) : p ∈ enum s ↔ p ∈ s := by
  rw [← Multiset.mem_coe, enum_coe]
  exact Iff.rfl

theorem enum_length (s : Finset Pt) : (enum s).length = s.card := by
  rw [← Multiset.coe_card, enum_coe]
  rfl

theorem enum_nodup (s : Finset Pt) : (enum s).Nodup := by
  rw [← Multiset.coe_nodup, enum_coe]
  exact s.nodup

theorem enum_toFinset (s : Finset Pt) : (enum s).toFinset = s :=
  Finset.ext fun p => by rw [List.mem_toFinset, enum_mem]

/-- Manhattan distance between two grid points.  The flood fill in
`GameInfo._find_groups` visits, from a base point, exactly the offsets
`(dx, dy)` with `|dx| + |dy| ≤ max_distance_between_points`. -/
def manh (p q : Pt) : ℤ := |p.1 - q.1| + |p.2 - q.2|

theorem manh_comm (p q : Pt) : manh p q = manh q p := by
  unfold manh; rw [abs_sub_comm, abs_sub_comm p.2]

/-- Bounds check of `_find_groups`:
`px < 0 or py < 0 or px >= map_width or py >= map_height` skips the cell. -/
def inBounds (w h : ℕ) (p : Pt) : Prop :=
  0 ≤ p.1 ∧ p.1 < (w : ℤ) ∧ 0 ≤ p.2 ∧ p.2 < (h : ℤ)

instance (w h : ℕ) : DecidablePred (inBounds w h) := fun p => by
  unfold inBounds; exact inferInstance

/-- The cells newly absorbed by the inner loop of `_find_groups` for one
popped base point: targets of the `nearby` offsets (Manhattan diamond of
radius `d`) that pass the bounds check and are still uncolored, i.e. still
in `remaining` (the picture holds `NOT_COLORED_YET` exactly on the points of
`remaining`, since painting and removal from `remaining` always happen
together). -/
def newly (w h : ℕ) (d : ℕ) (base : Pt) (rem : Finset Pt) : Finset Pt :=
  rem.filter (fun q => inBounds w h q ∧ manh base q ≤ (d : ℤ))

theorem newly_subset (w h d : ℕ) (base : Pt) (rem : Finset Pt) :
    newly w h d base rem ⊆ rem := Finset.filter_subset _ _

theorem flood_measure (w h d : ℕ) (b : Pt) (qs : List Pt) (rem : Finset Pt) :
    (rem \ newly w h d b rem).card + (qs ++ enum (newly w h d b rem)).length
      < rem.card + (b :: qs).length := by
  have hsub : newly w h d b rem ⊆ rem := newly_subset w h d b rem
  have hlen : (enum (newly w h d b rem)).length = (newly w h d b rem).card :=
    enum_length _
  have hcard : (rem \ newly w h d b rem).card
      = rem.card - (newly w h d b rem).card := Finset.card_sdiff hsub
  have hle : (newly w h d b rem).card ≤ rem.card := Finset.card_le_card hsub
  simp only [List.length_append, List.length_cons, hlen, hcard]
  omega

/-- The inner `while queue:` loop of `GameInfo._find_groups`: repeatedly pop
a base point, absorb all its still-uncolored in-bounds diamond neighbours
into the group, the queue, and out of `remaining`.  Returns the final group
and the final remaining set. -/
def flood (w h d : ℕ) : List Pt → Finset Pt → Finset Pt → Finset Pt × Finset Pt
  | [], rem, grp => (grp, rem)
  | b :: qs, rem, grp =>
      flood w h d (qs ++ enum (newly w h d b rem)) (rem \ newly w h d b rem)
        (grp ∪ newly w h d b rem)
termination_by q rem _ => rem.card + q.length
decreasing_by exact flood_measure _ _ _ _ _ _

theorem flood_nil (w h d : ℕ) (rem grp : Finset Pt) :
    flood w h d [] rem grp = (grp, rem) := by
  rw [flood.eq_def]

theorem flood_cons (w h d : ℕ) (b : Pt) (qs : List Pt) (rem grp : Finset Pt) :
    flood w h d (b :: qs) rem grp =
      flood w h d (qs ++ enum (newly w h d b rem)) (rem \ newly w h d b rem)
        (grp ∪ newly w h d b rem) := by
  rw [flood.eq_def]

/-- The remaining set only shrinks across the inner loop. -/
theorem flood_rem_subset (w h d : ℕ) (q : List Pt) (rem grp : Finset Pt) :
    (flood w h d q rem grp).2 ⊆ rem := by
  induction q, rem, grp using flood.induct w h d with
  | case1 rem grp => rw [flood_nil]
  | case2 b qs rem grp ih =>
      rw [flood_cons]
      exact ih.trans Finset.sdiff_subset

/-- `remaining.pop()` of `_find_groups`, embedded as the first point of the
canonical enumeration. -/
def pick (s : Finset Pt) : Pt := (enum s).headI

theorem pick_mem (s : Finset Pt) (hs : s ≠ ∅) : pick s ∈ s := by
  have hlen : (enum s).length = s.card := enum_length s
  have hne : enum s ≠ [] := by
    intro hnil
    apply hs
    rw [← Finset.card_eq_zero, ← hlen, hnil, List.length_nil]
  cases he : enum s with
  | nil => exact absurd he hne
  | cons a l =>
      have hpa : pick s = a := by rw [pick, he, List.headI_cons]
      have hmem : a ∈ enum s := by rw [he]; exact List.mem_cons_self a l
      rw [hpa]
      exact (enum_mem s a).mp hmem

/-- The outer `while remaining:` loop of `GameInfo._find_groups`: pick a
fresh start point, flood its component, keep the component when its size is
at least `m` (`minimum_points_per_group`, inclusive threshold), and continue
on what remains. -/
def findGroupsAux (w h d m : ℕ) (rem : Finset Pt) : List (Finset Pt) :=
  if hrem : rem = ∅ then []
  else
    let start := pick rem
    let res := flood w h d [start] (rem.erase start) {start}
    (if m ≤ res.1.card then [res.1] else []) ++ findGroupsAux w h d m res.2
termination_by rem.card
decreasing_by
  exact lt_of_le_of_lt (Finset.card_le_card (flood_rem_subset _ _ _ _ _ _))
    (Finset.card_erase_lt_of_mem (pick_mem rem hrem))

/-- `GameInfo._find_groups`, embedded.  `w`/`h` are the pathing grid's
width/height, `points` the input point set, `m` the
`minimum_points_per_group` parameter (default 8), and `d` the
`max_distance_between_points` parameter (default 2).  The `picture` array of
the source is not represented explicitly: a cell holds `NOT_COLORED_YET`
exactly when it is still in `remaining` (painting and removal from
`remaining` always happen together), so the colour test is embedded as
membership in `remaining`. -/
def find_groups (w h : ℕ) (points : Finset Pt) (m : ℕ := 8) (d : ℕ := 2) :
    List (Finset Pt) :=
  findGroupsAux w h d m points

theorem findGroupsAux_empty (w h d m : ℕ) : findGroupsAux w h d m ∅ = [] := by
  rw [findGroupsAux]
  simp

theorem findGroupsAux_nonempty (w h d m : ℕ) (rem : Finset Pt) (hrem : rem ≠ ∅) :
    findGroupsAux w h d m rem =
      (if m ≤ (flood w h d [pick rem] (rem.erase (pick rem)) {pick rem}).1.card
        then [(flood w h d [pick rem] (rem.erase (pick rem)) {pick rem}).1]
        else []) ++
      findGroupsAux w h d m
        (flood w h d [pick rem] (rem.erase (pick rem)) {pick rem}).2 := by
  rw [findGroupsAux]
  simp [hrem]

/-! ### The dilated adjacency and reachability -/

/-- One hop of the dilated adjacency through the point set `S`: the target
lies in `S` and is within Manhattan distance `d` of the source. -/
def Step (S : Finset Pt) (d : ℕ) (a b : Pt) : Prop :=
  b ∈ S ∧ manh a b ≤ (d : ℤ)

/-- Reachability by chained hops of Manhattan distance at most `d` through
points of `S`. -/
def ReachIn (S : Finset Pt) (d : ℕ) (p q : Pt) : Prop :=
  Relation.ReflTransGen (Step S d) p q

theorem ReachIn.mono {S T : Finset Pt} (hST : S ⊆ T) {d : ℕ} {p q : Pt}
    (hr : ReachIn S d p q) : ReachIn T d p q :=
  Relation.ReflTransGen.mono (fun _ _ hab => ⟨hST hab.1, hab.2⟩) hr

theorem ReachIn.mem_right {S : Finset Pt} {d : ℕ} {p q : Pt}
    (hp : p ∈ S) (hr : ReachIn S d p q) : q ∈ S := by
  induction hr with
  | refl => exact hp
  | tail _ hbc ih => exact hbc.1

theorem ReachIn.symm {S : Finset Pt} {d : ℕ} {p q : Pt}
    (hp : p ∈ S) (hr : ReachIn S d p q) : ReachIn S d q p := by
  induction hr with
  | refl => exact Relation.ReflTransGen.refl
  | tail hab hbc ih =>
      rename_i b c
      have hb : b ∈ S := ReachIn.mem_right hp hab
      exact Relation.ReflTransGen.head ⟨hb, (manh_comm b c) ▸ hbc.2⟩ ih

/-- Invariant of the inner `while queue:` loop: starting from a group whose
unprocessed members are exactly the queue, the loop returns a group that
extends the input group by exactly the removed remaining points, contains
the root, is internally connected from the root, and has no remaining point
adjacent (in bounds, within distance `d`) to any group point. -/
theorem flood_spec (w h d : ℕ) (root : Pt) (q : List Pt) (rem grp : Finset Pt) :
    (∀ p ∈ q, p ∈ grp) →
    Disjoint grp rem →
    root ∈ grp →
    (∀ p ∈ grp, ReachIn grp d root p) →
    (∀ p ∈ grp, p ∈ q ∨ ∀ t ∈ rem, ¬(inBounds w h t ∧ manh p t ≤ (d : ℤ))) →
    grp ⊆ (flood w h d q rem grp).1 ∧
    (flood w h d q rem grp).1 = grp ∪ (rem \ (flood w h d q rem grp).2) ∧
    Disjoint (flood w h d q rem grp).1 (flood w h d q rem grp).2 ∧
    root ∈ (flood w h d q rem grp).1 ∧
    (∀ p ∈ (flood w h d q rem grp).1,
      ReachIn (flood w h d q rem grp).1 d root p) ∧
    (∀ p ∈ (flood w h d q rem grp).1, ∀ t ∈ (flood w h d q rem grp).2,
      ¬(inBounds w h t ∧ manh p t ≤ (d : ℤ))) := by
  induction q, rem, grp using flood.induct w h d with
  | case1 rem grp =>
      intro _ hdisj hroot hconn hclosed
      rw [flood_nil]
      refine ⟨Finset.Subset.refl _, by simp, hdisj, hroot, hconn, ?_⟩
      intro p hp t ht
      rcases hclosed p hp with hq | hcl
      · exact absurd hq (List.not_mem_nil p)
      · exact hcl t ht
  | case2 b qs rem grp ih =>
      intro hq hdisj hroot hconn hclosed
      rw [flood_cons]
      set new := newly w h d b rem with hnew
      have hnsub : new ⊆ rem := newly_subset w h d b rem
      have hgg : grp ⊆ grp ∪ new := Finset.subset_union_left
      have hb : b ∈ grp := hq b (List.mem_cons_self b qs)
      -- re-establish the loop invariant for the recursive call
      have hq' : ∀ p ∈ qs ++ enum new, p ∈ grp ∪ new := by
        intro p hp
        rcases List.mem_append.mp hp with hp | hp
        · exact hgg (hq p (List.mem_cons_of_mem b hp))
        · exact Finset.mem_union_right _ ((enum_mem _ p).mp hp)
      have hdisj' : Disjoint (grp ∪ new) (rem \ new) := by
        rw [Finset.disjoint_union_left]
        exact ⟨hdisj.mono_right Finset.sdiff_subset, Finset.disjoint_sdiff⟩
      have hroot' : root ∈ grp ∪ new := hgg hroot
      have hconn' : ∀ p ∈ grp ∪ new, ReachIn (grp ∪ new) d root p := by
        intro p hp
        rcases Finset.mem_union.mp hp with hp | hp
        · exact (hconn p hp).mono hgg
        · refine Relation.ReflTransGen.tail ((hconn b hb).mono hgg) ?_
          have := (Finset.mem_filter.mp hp).2
          exact ⟨Finset.mem_union_right _ hp, this.2⟩
      have hclosed' : ∀ p ∈ grp ∪ new, p ∈ qs ++ enum new ∨
          ∀ t ∈ rem \ new, ¬(inBounds w h t ∧ manh p t ≤ (d : ℤ)) := by
        intro p hp
        rcases Finset.mem_union.mp hp with hp | hp
        · rcases hclosed p hp with hpq | hcl
          · rcases List.mem_cons.mp hpq with hpb | hpqs
            · subst hpb
              refine Or.inr (fun t ht hadj => ?_)
              have htrem : t ∈ rem := (Finset.mem_sdiff.mp ht).1
              have htnew : t ∉ new := (Finset.mem_sdiff.mp ht).2
              exact htnew (Finset.mem_filter.mpr ⟨htrem, hadj⟩)
            · exact Or.inl (List.mem_append.mpr (Or.inl hpqs))
          · exact Or.inr (fun t ht => hcl t (Finset.mem_sdiff.mp ht).1)
        · exact Or.inl (List.mem_append.mpr (Or.inr ((enum_mem _ p).mpr hp)))
      obtain ⟨h1, h2, h3, h4, h5, h6⟩ := ih hq' hdisj' hroot' hconn' hclosed'
      refine ⟨hgg.trans h1, ?_, h3, h4, h5, h6⟩
      -- the accounting identity: the final group is the input group plus
      -- exactly the remaining points that were removed
      rw [h2]
      have hrs : (flood w h d (qs ++ enum new) (rem \ new) (grp ∪ new)).2 ⊆ rem \ new :=
        flood_rem_subset _ _ _ _ _ _
      ext x
      simp only [Finset.mem_union, Finset.mem_sdiff]
      constructor
      · rintro ((hx | hx) | ⟨⟨hx1, hx2⟩, hx3⟩)
        · exact Or.inl hx
        · exact Or.inr ⟨hnsub hx, fun hxf => (Finset.mem_sdiff.mp (hrs hxf)).2 hx⟩
        · exact Or.inr ⟨hx1, hx3⟩
      · rintro (hx | ⟨hx1, hx2⟩)
        · exact Or.inl (Or.inl hx)
        · by_cases hxn : x ∈ new
          · exact Or.inl (Or.inr hxn)
          · exact Or.inr ⟨⟨hx1, hxn⟩, hx2⟩

/-- Non-adjacency of two point sets: no point of the second is an in-bounds
cell within Manhattan distance `d` of a point of the first. -/
def NonAdj (w h d : ℕ) (c c' : Finset Pt) : Prop :=
  ∀ p ∈ c, ∀ t ∈ c', ¬(inBounds w h t ∧ manh p t ≤ (d : ℤ))

/-- Decomposition of the outer loop of `_find_groups`: the remaining set
splits into a list of nonempty, pairwise non-adjacent, internally connected
components, and the returned groups are exactly the components of size at
least `m`, in order. -/
theorem findGroupsAux_spec (w h d m : ℕ) (rem : Finset Pt) :
    ∃ comps : List (Finset Pt),
      findGroupsAux w h d m rem = comps.filter (fun c => decide (m ≤ c.card)) ∧
      (∀ c ∈ comps, c ≠ ∅) ∧
      (∀ p : Pt, p ∈ rem ↔ ∃ c ∈ comps, p ∈ c) ∧
      List.Pairwise (NonAdj w h d) comps ∧
      (∀ c ∈ comps, ∀ p ∈ c, ∀ q ∈ c, ReachIn c d p q) := by
  induction rem using Finset.strongInduction with
  | _ rem ih =>
    by_cases hrem : rem = ∅
    · subst hrem
      refine ⟨[], by rw [findGroupsAux_empty]; rfl, by simp, by simp, by simp, by simp⟩
    · set start := pick rem with hstart
      have hstartmem : start ∈ rem := pick_mem rem hrem
      set G := (flood w h d [start] (rem.erase start) {start}).1 with hG
      set R := (flood w h d [start] (rem.erase start) {start}).2 with hR
      obtain ⟨hsubG, hGeq, hdisjGR, hrootG, hconnG, hcloseG⟩ :=
        flood_spec w h d start [start] (rem.erase start) {start}
          (by intro p hp; simpa using List.mem_singleton.mp hp)
          (by simp [Finset.disjoint_singleton_left])
          (Finset.mem_singleton_self start)
          (by intro p hp
              rw [Finset.mem_singleton.mp hp]
              exact Relation.ReflTransGen.refl)
          (by intro p hp; exact Or.inl (by simpa using Finset.mem_singleton.mp hp))
      have hRsub : R ⊆ rem.erase start := flood_rem_subset _ _ _ _ _ _
      have hRlt : R ⊂ rem :=
        lt_of_le_of_lt hRsub (Finset.erase_ssubset hstartmem)
      obtain ⟨comps', hout', hne', hcover', hpair', hconn'⟩ := ih R hRlt
      refine ⟨G :: comps', ?_, ?_, ?_, ?_, ?_⟩
      · rw [findGroupsAux_nonempty w h d m rem hrem, ← hstart, ← hG, ← hR, hout',
          List.filter_cons]
        by_cases hm : m ≤ G.card
        · simp [hm]
        · simp [hm]
      · intro c hc
        rcases List.mem_cons.mp hc with hc | hc
        · subst hc
          exact Finset.ne_empty_of_mem hrootG
        · exact hne' c hc
      · intro p
        constructor
        · intro hp
          by_cases hps : p = start
          · exact ⟨G, List.mem_cons_self _ _, hps ▸ hrootG⟩
          · have hperase : p ∈ rem.erase start := Finset.mem_erase.mpr ⟨hps, hp⟩
            by_cases hpR : p ∈ R
            · obtain ⟨c, hc, hpc⟩ := (hcover' p).mp hpR
              exact ⟨c, List.mem_cons_of_mem _ hc, hpc⟩
            · refine ⟨G, List.mem_cons_self _ _, ?_⟩
              rw [hG, hGeq]
              exact Finset.mem_union_right _
                (Finset.mem_sdiff.mpr ⟨hperase, hR ▸ hpR⟩)
        · rintro ⟨c, hc, hpc⟩
          rcases List.mem_cons.mp hc with hc | hc
          · subst hc
            rw [hG, hGeq] at hpc
            rcases Finset.mem_union.mp hpc with hpc | hpc
            · exact (Finset.mem_singleton.mp hpc) ▸ hstartmem
            · exact Finset.mem_of_mem_erase (Finset.mem_sdiff.mp hpc).1
          · exact Finset.mem_of_mem_erase
              (hRsub ((hcover' p).mpr ⟨c, hc, hpc⟩))
      · refine List.Pairwise.cons ?_ hpair'
        intro c' hc' p hp t ht
        exact hcloseG p hp t ((hcover' t).mpr ⟨c', hc', ht⟩)
      · intro c hc p hp q hq
        rcases List.mem_cons.mp hc with hc | hc
        · subst hc
          exact Relation.ReflTransGen.trans
            ((hconnG p hp).symm hrootG) (hconnG q hq)
        · exact hconn' c hc p hp q hq

/-- Strict separation of two point sets: every pair of points across them is
more than `d` apart in Manhattan distance. -/
def Sep (d : ℕ) (c c' : Finset Pt) : Prop :=
  ∀ p ∈ c, ∀ t ∈ c', (d : ℤ) < manh p t

theorem Sep.symmetric (d : ℕ) : Symmetric (Sep d) := by
  intro c c' hsep p hp t ht
  rw [manh_comm]
  exact hsep t ht p hp

theorem Sep.disjoint {d : ℕ} {c c' : Finset Pt} (hsep : Sep d c c') :
    Disjoint c c' := by
  rw [Finset.disjoint_left]
  intro p hp hp'
  have := hsep p hp p hp'
  unfold manh at this
  simp only [sub_self, abs_zero, add_zero] at this
  omega

/-- Components of `_find_groups`, value-level version: for in-bounds input
points the remaining set decomposes into nonempty, internally connected,
pairwise strictly separated components, and the output keeps exactly those
of size at least `m`. -/
theorem find_groups_components (w h m d : ℕ) (pts : Finset Pt)
    (hin : ∀ p ∈ pts, inBounds w h p) :
    ∃ comps : List (Finset Pt),
      find_groups w h pts m d = comps.filter (fun c => decide (m ≤ c.card)) ∧
      (∀ c ∈ comps, c ≠ ∅) ∧
      (∀ p : Pt, p ∈ pts ↔ ∃ c ∈ comps, p ∈ c) ∧
      (∀ c ∈ comps, ∀ c' ∈ comps, c ≠ c' → Sep d c c') ∧
      (∀ c ∈ comps, ∀ p ∈ c, ∀ q ∈ c, ReachIn c d p q) := by
  obtain ⟨comps, hout, hne, hcover, hpair, hconn⟩ :=
    findGroupsAux_spec w h d m pts
  have hcsub : ∀ c ∈ comps, ∀ p ∈ c, p ∈ pts := by
    intro c hc p hp
    exact (hcover p).mpr ⟨c, hc, hp⟩
  have hpairsep : List.Pairwise (Sep d) comps := by
    refine List.Pairwise.imp_of_mem ?_ hpair
    intro c c' hc hc' hna p hp t ht
    have hna' := hna p hp t ht
    have htin : inBounds w h t := hin t (hcsub c' hc' t ht)
    by_contra hle
    exact hna' ⟨htin, by omega⟩
  refine ⟨comps, hout, hne, hcover, ?_, hconn⟩
  intro c hc c' hc' hne'
  exact hpairsep.forall (Sep.symmetric d) hc hc' hne'

/-- Any chain through the full point set that starts inside a component of a
pairwise-separated cover stays inside it. -/
theorem reach_stays (d : ℕ) (pts : Finset Pt) (comps : List (Finset Pt))
    (hcover : ∀ p : Pt, p ∈ pts ↔ ∃ c ∈ comps, p ∈ c)
    (hsep : ∀ c ∈ comps, ∀ c' ∈ comps, c ≠ c' → Sep d c c')
    (c : Finset Pt) (hc : c ∈ comps) {p q : Pt} (hp : p ∈ c)
    (hr : ReachIn pts d p q) : q ∈ c := by
  induction hr with
  | refl => exact hp
  | tail hab hbc ih =>
      rename_i b t
      obtain ⟨c', hc', htc'⟩ := (hcover t).mp hbc.1
      by_cases hcc : c = c'
      · exact hcc ▸ htc'
      · have := hsep c hc c' hc' hcc b ih t htc'
        exact absurd hbc.2 (by omega)

/-- Any chain through the full point set that starts inside a closed set
(no outside point within distance `d`) stays inside it. -/
theorem reach_stays_closed (d : ℕ) (pts C : Finset Pt)
    (hclosed : ∀ p ∈ C, ∀ q ∈ pts, q ∉ C → ¬(manh p q ≤ (d : ℤ)))
    {p q : Pt} (hp : p ∈ C) (hr : ReachIn pts d p q) : q ∈ C := by
  induction hr with
  | refl => exact hp
  | tail hab hbc ih =>
      rename_i b t
      by_contra htC
      exact hclosed b ih t hbc.1 htC hbc.2

/-- C1.  Every group returned by `_find_groups` is internally connected
under the dilated adjacency, and distinct returned groups are disjoint and
mutually unreachable through the input point set. -/
theorem claimC1 (w h m d : ℕ) (pts : Finset Pt)
    (hin : ∀ p ∈ pts, inBounds w h p) :
    (∀ G ∈ find_groups w h pts m d, ∀ p ∈ G, ∀ q ∈ G, ReachIn G d p q) ∧
    (∀ G ∈ find_groups w h pts m d, ∀ G' ∈ find_groups w h pts m d, G ≠ G' →
      Disjoint G G' ∧ ∀ p ∈ G, ∀ q ∈ G', ¬ReachIn pts d p q) := by
  obtain ⟨comps, hout, hne, hcover, hsep, hconn⟩ :=
    find_groups_components w h m d pts hin
  have hmem : ∀ G ∈ find_groups w h pts m d, G ∈ comps := by
    intro G hG
    rw [hout] at hG
    exact (List.mem_filter.mp hG).1
  constructor
  · intro G hG
    exact hconn G (hmem G hG)
  · intro G hG G' hG' hGG
    have hsepGG : Sep d G G' := hsep G (hmem G hG) G' (hmem G' hG') hGG
    refine ⟨hsepGG.disjoint, ?_⟩
    intro p hp q hq hr
    have : q ∈ G := reach_stays d pts comps hcover hsep G (hmem G hG) hp hr
    exact (Finset.disjoint_left.mp hsepGG.disjoint this) hq

/-- C8.  A maximal connected component of the input of exactly
`minimum_points_per_group` cells is retained, one of one fewer cell is
dropped: the size threshold is inclusive. -/
theorem claimC8 (w h m d : ℕ) (pts C : Finset Pt)
    (hin : ∀ p ∈ pts, inBounds w h p)
    (hCsub : C ⊆ pts) (hCne : C ≠ ∅)
    (hCconn : ∀ p ∈ C, ∀ q ∈ C, ReachIn C d p q)
    (hCclosed : ∀ p ∈ C, ∀ q ∈ pts, q ∉ C → ¬(manh p q ≤ (d : ℤ))) :
    (C.card = m → C ∈ find_groups w h pts m d) ∧
    (C.card + 1 = m → C ∉ find_groups w h pts m d) := by
  obtain ⟨comps, hout, hne, hcover, hsep, hconn⟩ :=
    find_groups_components w h m d pts hin
  obtain ⟨p0, hp0⟩ := Finset.nonempty_iff_ne_empty.mpr hCne
  obtain ⟨G, hG, hp0G⟩ := (hcover p0).mp (hCsub hp0)
  have hGsub : ∀ t ∈ G, t ∈ pts := fun t ht => (hcover t).mpr ⟨G, hG, ht⟩
  have hCG : C = G := by
    apply Finset.Subset.antisymm
    · intro q hq
      exact reach_stays d pts comps hcover hsep G hG hp0G
        ((hCconn p0 hp0 q hq).mono hCsub)
    · intro q hq
      exact reach_stays_closed d pts C hCclosed hp0
        ((hconn G hG p0 hp0G q hq).mono hGsub)
  constructor
  · intro hcard
    rw [hout, hCG]
    exact List.mem_filter.mpr ⟨hG, by rw [← hCG, hcard]; simp⟩
  · intro hcard hCmem
    rw [hout] at hCmem
    have := (List.mem_filter.mp hCmem).2
    rw [decide_eq_true_iff] at this
    omega

/-- A set all of whose points are within distance `d` of one of its members
is pairwise connected (two hops through the centre). -/
theorem star_reach (C : Finset Pt) (d : ℕ) (c0 : Pt) (hc0 : c0 ∈ C)
    (hstar : ∀ p ∈ C, manh c0 p ≤ (d : ℤ)) :
    ∀ p ∈ C, ∀ q ∈ C, ReachIn C d p q := by
  intro p hp q hq
  exact Relation.ReflTransGen.head ⟨hc0, manh_comm c0 p ▸ hstar p hp⟩
    (Relation.ReflTransGen.single ⟨hq, hstar q hq⟩)

/-- Concrete input for the C1 witness: two cells next to each other and one
far away, on a 10×10 grid. -/
def ptsC1 : Finset Pt := {(0, 0), (0, 1), (5, 5)}

/-- Witness for C1 at a concrete input point set. -/
theorem claimC1_witness :
    (∀ G ∈ find_groups 10 10 ptsC1 8 2, ∀ p ∈ G, ∀ q ∈ G, ReachIn G 2 p q) ∧
    (∀ G ∈ find_groups 10 10 ptsC1 8 2, ∀ G' ∈ find_groups 10 10 ptsC1 8 2,
      G ≠ G' → Disjoint G G' ∧ ∀ p ∈ G, ∀ q ∈ G', ¬ReachIn ptsC1 2 p q) :=
  claimC1 10 10 8 2 ptsC1 (by decide)

/-- An 8-cell cluster, all within distance 2 of `(1, 1)`. -/
def grpA : Finset Pt :=
  {(1, 1), (0, 1), (2, 1), (1, 0), (1, 2), (0, 0), (2, 2), (0, 2)}

/-- A 7-cell cluster, all within distance 2 of `(10, 10)`, far from `grpA`. -/
def grpB : Finset Pt :=
  {(10, 10), (9, 10), (11, 10), (10, 9), (10, 11), (9, 9), (11, 11)}

/-- Concrete input for the C8 witness: the two clusters together. -/
def ptsC8 : Finset Pt := grpA ∪ grpB

/-- Witness for C8: with the default `minimum_points_per_group = 8`, the
8-cell component is retained and the 7-cell component is dropped. -/
theorem claimC8_witness :
    grpA ∈ find_groups 20 20 ptsC8 8 2 ∧
    grpB ∉ find_groups 20 20 ptsC8 8 2 :=
  ⟨(claimC8 20 20 8 2 ptsC8 grpA (by decide) (by decide) (by decide)
      (star_reach grpA 2 (1, 1) (by decide) (by decide)) (by decide)).1
      (by decide),
   (claimC8 20 20 8 2 ptsC8 grpB (by decide) (by decide) (by decide)
      (star_reach grpB 2 (10, 10) (by decide) (by decide)) (by decide)).2
      (by decide)⟩

/-! ### The Ramp geometry engine -/

/-- A `Ramp`: its point set `self._points` and the terrain height lookup
`self.height_at` (`self.__game_info.terrain_height[p]`, an integer). -/
structure Ramp where
  pts : Finset Pt
  height : Pt → ℤ

namespace Ramp

/-- `Ramp.size`. -/
def size (r : Ramp) : ℕ := r.pts.card

/-- `Ramp.points` (the accessor returns a copy of `self._points`; a copy of
a set is the same value). -/
def points (r : Ramp) : Finset Pt := r.pts

/-- The running-maximum fold of `Ramp.upper`: skip a point below the current
maximum, add a point equal to it, reset to a singleton on a strictly higher
point. -/
def upperAux (hgt : Pt → ℤ) : List Pt → ℤ → Finset Pt → Finset Pt
  | [], _, res => res
  | p :: rest, cmax, res =>
      if hgt p < cmax then upperAux hgt rest cmax res
      else if hgt p = cmax then upperAux hgt rest cmax (insert p res)
      else upperAux hgt rest (hgt p) {p}

/-- `Ramp.upper`: the running maximum starts at the sentinel `-10000`. -/
def upper (r : Ramp) : Finset Pt := upperAux r.height (enum r.pts) (-10000) ∅

/-- The running-minimum fold of `Ramp.lower`. -/
def lowerAux (hgt : Pt → ℤ) : List Pt → ℤ → Finset Pt → Finset Pt
  | [], _, res => res
  | p :: rest, cmin, res =>
      if cmin < hgt p then lowerAux hgt rest cmin res
      else if hgt p = cmin then lowerAux hgt rest cmin (insert p res)
      else lowerAux hgt rest (hgt p) {p}

/-- `Ramp.lower`: the running minimum starts at the sentinel `10000`. -/
def lower (r : Ramp) : Finset Pt := lowerAux r.height (enum r.pts) 10000 ∅

/-- A grid point as an exact rational pair. -/
def ptQ (p : Pt) : ℚ × ℚ := ((p.1 : ℚ), (p.2 : ℚ))

/-- Arithmetic mean of a point set's coordinates
(`Point2((sum(p.x)/length, sum(p.y)/length))`).  Division is total in the
embedding; the source raises on an empty set, which none of the verified
statements touch. -/
def centroid (s : Finset Pt) : ℚ × ℚ :=
  ((∑ p ∈ s, (p.1 : ℚ)) / s.card, (∑ p ∈ s, (p.2 : ℚ)) / s.card)

/-- `Ramp.top_center`. -/
def top_center (r : Ramp) : ℚ × ℚ := centroid r.upper

/-- `Ramp.bottom_center`. -/
def bottom_center (r : Ramp) : ℚ × ℚ := centroid r.lower

/-- Modelled from the spec: `Point2._distance_squared` (module
`sc2/position.py`, not under `src/`), "squared distance between points". -/
def sqdistQ (a b : ℚ × ℚ) : ℚ := (a.1 - b.1) ^ 2 + (a.2 - b.2) ^ 2

/-- The sort key of `upper2_for_ramp_wall`:
`lambda x: x._distance_squared(self.bottom_center)`. -/
def wallKey (r : Ramp) (p : Pt) : ℚ := sqdistQ (ptQ p) r.bottom_center

end Ramp

/-- Stable insertion into a descending-by-key list, matching Python's stable
`sorted(..., reverse=True)`: an earlier element stays before a later one
with an equal key. -/
def insertDesc (key : Pt → ℚ) (x : Pt) : List Pt → List Pt
  | [] => [x]
  | y :: ys => if key y ≤ key x then x :: y :: ys else y :: insertDesc key x ys

/-- Stable sort, descending by key. -/
def sortDesc (key : Pt → ℚ) : List Pt → List Pt
  | [] => []
  | x :: xs => insertDesc key x (sortDesc key xs)

theorem mem_insertDesc (key : Pt → ℚ) (x a : Pt) (l : List Pt) :
    a ∈ insertDesc key x l ↔ a = x ∨ a ∈ l := by
  induction l with
  | nil => simp [insertDesc]
  | cons y ys ih =>
      by_cases hxy : key y ≤ key x
      · simp [insertDesc, hxy]
      · simp only [insertDesc, if_neg hxy, List.mem_cons, ih]
        tauto

theorem perm_insertDesc (key : Pt → ℚ) (x : Pt) (l : List Pt) :
    List.Perm (insertDesc key x l) (x :: l) := by
  induction l with
  | nil => simp [insertDesc]
  | cons y ys ih =>
      by_cases hxy : key y ≤ key x
      · simp [insertDesc, hxy]
      · rw [insertDesc, if_neg hxy]
        exact (List.Perm.cons y ih).trans (List.Perm.swap x y ys)

theorem perm_sortDesc (key : Pt → ℚ) (l : List Pt) :
    List.Perm (sortDesc key l) l := by
  induction l with
  | nil => simp [sortDesc]
  | cons x xs ih =>
      exact (perm_insertDesc key x (sortDesc key xs)).trans (List.Perm.cons x ih)

theorem pairwise_insertDesc (key : Pt → ℚ) (x : Pt) (l : List Pt)
    (hl : List.Pairwise (fun a b => key b ≤ key a) l) :
    List.Pairwise (fun a b => key b ≤ key a) (insertDesc key x l) := by
  induction l with
  | nil => simp [insertDesc]
  | cons y ys ih =>
      by_cases hxy : key y ≤ key x
      · rw [insertDesc, if_pos hxy]
        refine List.Pairwise.cons ?_ hl
        intro b hb
        rcases List.mem_cons.mp hb with hb | hb
        · exact hb ▸ hxy
        · exact le_trans (List.rel_of_pairwise_cons hl hb) hxy
      · rw [insertDesc, if_neg hxy]
        refine List.Pairwise.cons ?_ (ih (List.Pairwise.of_cons hl))
        intro b hb
        rcases (mem_insertDesc key x b ys).mp hb with hb | hb
        · exact hb ▸ le_of_lt (lt_of_not_le hxy)
        · exact List.rel_of_pairwise_cons hl hb

theorem pairwise_sortDesc (key : Pt → ℚ) (l : List Pt) :
    List.Pairwise (fun a b => key b ≤ key a) (sortDesc key l) := by
  induction l with
  | nil => simp [sortDesc]
  | cons x xs ih => exact pairwise_insertDesc key x (sortDesc key xs) ih

namespace Ramp

/-- The sorted-and-truncated list of `upper2_for_ramp_wall`:
`sorted(list(self.upper), key=..., reverse=True)` followed by popping from
the end until at most two points are left.  The over-5-points cutoff of the
source (`if len(self.upper) > 5: return set()`) is applied first. -/
def upper2List (r : Ramp) : List Pt :=
  if 5 < r.upper.card then []
  else (sortDesc (r.wallKey) (enum r.upper)).take 2

/-- `Ramp.upper2_for_ramp_wall` as a set (`return set(upper2)`). -/
def upper2_for_ramp_wall (r : Ramp) : Finset Pt := r.upper2List.toFinset

end Ramp

/-! ### Characterization of the running-extremum folds -/

/-- Maximum of the heights along a list, with base value `c`. -/
def listMax (hgt : Pt → ℤ) (l : List Pt) (c : ℤ) : ℤ :=
  l.foldr (fun p acc => max (hgt p) acc) c

theorem listMax_nil (hgt : Pt → ℤ) (c : ℤ) : listMax hgt [] c = c := rfl

theorem listMax_cons (hgt : Pt → ℤ) (p : Pt) (l : List Pt) (c : ℤ) :
    listMax hgt (p :: l) c = max (hgt p) (listMax hgt l c) := rfl

theorem le_listMax_base (hgt : Pt → ℤ) (l : List Pt) (c : ℤ) :
    c ≤ listMax hgt l c := by
  induction l with
  | nil => exact le_refl c
  | cons p rest ih => exact le_trans ih (le_max_right _ _)

theorem le_listMax_mem (hgt : Pt → ℤ) (l : List Pt) (c : ℤ) (p : Pt)
    (hp : p ∈ l) : hgt p ≤ listMax hgt l c := by
  induction l with
  | nil => exact absurd hp (List.not_mem_nil p)
  | cons q rest ih =>
      rcases List.mem_cons.mp hp with hp | hp
      · rw [hp, listMax_cons]; exact le_max_left _ _
      · rw [listMax_cons]; exact le_trans (ih hp) (le_max_right _ _)

theorem listMax_base_max (hgt : Pt → ℤ) (l : List Pt) (a b : ℤ) :
    listMax hgt l (max a b) = max a (listMax hgt l b) := by
  induction l with
  | nil => rfl
  | cons p rest ih =>
      rw [listMax_cons, listMax_cons, ih, max_left_comm]

theorem listMax_cases (hgt : Pt → ℤ) (l : List Pt) (c : ℤ) :
    listMax hgt l c = c ∨ ∃ p ∈ l, listMax hgt l c = hgt p := by
  induction l with
  | nil => exact Or.inl rfl
  | cons p rest ih =>
      rw [listMax_cons]
      rcases le_or_lt (hgt p) (listMax hgt rest c) with hle | hlt
      · rw [max_eq_right hle]
        rcases ih with h | ⟨q, hq, hq'⟩
        · exact Or.inl h
        · exact Or.inr ⟨q, List.mem_cons_of_mem p hq, hq'⟩
      · rw [max_eq_left (le_of_lt hlt)]
        exact Or.inr ⟨p, List.mem_cons_self p rest, rfl⟩

theorem upperAux_spec (hgt : Pt → ℤ) (l : List Pt) :
    ∀ (cmax : ℤ) (res : Finset Pt), (∀ p ∈ res, hgt p = cmax) →
      Ramp.upperAux hgt l cmax res ⊆ res ∪ l.toFinset ∧
      (∀ p ∈ Ramp.upperAux hgt l cmax res, hgt p = listMax hgt l cmax) ∧
      (∀ p ∈ l, hgt p = listMax hgt l cmax →
        p ∈ Ramp.upperAux hgt l cmax res) ∧
      (∀ p ∈ res, hgt p = listMax hgt l cmax →
        p ∈ Ramp.upperAux hgt l cmax res) := by
  induction l with
  | nil =>
      intro cmax res hres
      refine ⟨Finset.subset_union_left, ?_, ?_, ?_⟩
      · intro p hp; rw [listMax_nil]; exact hres p hp
      · intro p hp; exact absurd hp (List.not_mem_nil p)
      · intro p hp _; exact hp
  | cons p rest ih =>
      intro cmax res hres
      have hbase : cmax ≤ listMax hgt rest cmax := le_listMax_base hgt rest cmax
      rcases lt_trichotomy (hgt p) cmax with hlt | heq | hgtc
      · -- skipped: strictly below the running maximum
        have hM : listMax hgt (p :: rest) cmax = listMax hgt rest cmax := by
          rw [listMax_cons]
          exact max_eq_right (le_trans (le_of_lt hlt) hbase)
        have hR : Ramp.upperAux hgt (p :: rest) cmax res
            = Ramp.upperAux hgt rest cmax res := by
          rw [Ramp.upperAux, if_pos hlt]
        obtain ⟨ih1, ih2, ih3, ih4⟩ := ih cmax res hres
        rw [hR, hM]
        refine ⟨ih1.trans ?_, ih2, ?_, ih4⟩
        · rw [List.toFinset_cons]
          exact Finset.union_subset_union (le_refl res)
            (Finset.subset_insert _ _)
        · intro q hq hq'
          rcases List.mem_cons.mp hq with hq | hq
          · subst hq
            exact absurd hq' (by omega)
          · exact ih3 q hq hq'
      · -- tie: added to the running result
        have hM : listMax hgt (p :: rest) cmax = listMax hgt rest cmax := by
          rw [listMax_cons]
          exact max_eq_right (heq ▸ hbase)
        have hR : Ramp.upperAux hgt (p :: rest) cmax res
            = Ramp.upperAux hgt rest cmax (insert p res) := by
          rw [Ramp.upperAux, if_neg (by omega), if_pos heq]
        have hres' : ∀ q ∈ insert p res, hgt q = cmax := by
          intro q hq
          rcases Finset.mem_insert.mp hq with hq | hq
          · rw [hq, heq]
          · exact hres q hq
        obtain ⟨ih1, ih2, ih3, ih4⟩ := ih cmax (insert p res) hres'
        rw [hR, hM]
        refine ⟨ih1.trans ?_, ih2, ?_, ?_⟩
        · rw [List.toFinset_cons]
          intro x hx
          rcases Finset.mem_union.mp hx with hx | hx
          · rcases Finset.mem_insert.mp hx with hx | hx
            · exact Finset.mem_union_right _ (hx ▸ Finset.mem_insert_self _ _)
            · exact Finset.mem_union_left _ hx
          · exact Finset.mem_union_right _ (Finset.mem_insert_of_mem hx)
        · intro q hq hq'
          rcases List.mem_cons.mp hq with hq | hq
          · exact ih4 q (hq ▸ Finset.mem_insert_self p res) hq'
          · exact ih3 q hq hq'
        · intro q hq hq'
          exact ih4 q (Finset.mem_insert_of_mem hq) hq'
      · -- strictly higher: the running state resets to this point
        have hMmax : max (hgt p) cmax = hgt p := max_eq_left (le_of_lt hgtc)
        have hM : listMax hgt rest (hgt p)
            = listMax hgt (p :: rest) cmax := by
          rw [listMax_cons]
          conv_lhs => rw [← hMmax]
          rw [listMax_base_max]
        have hR : Ramp.upperAux hgt (p :: rest) cmax res
            = Ramp.upperAux hgt rest (hgt p) {p} := by
          rw [Ramp.upperAux, if_neg (by omega), if_neg (by omega)]
        have hres' : ∀ q ∈ ({p} : Finset Pt), hgt q = hgt p := by
          intro q hq
          rw [Finset.mem_singleton.mp hq]
        obtain ⟨ih1, ih2, ih3, ih4⟩ := ih (hgt p) {p} hres'
        rw [hR, ← hM]
        have hple : hgt p ≤ listMax hgt rest (hgt p) :=
          le_listMax_base hgt rest (hgt p)
        refine ⟨ih1.trans ?_, ih2, ?_, ?_⟩
        · rw [List.toFinset_cons]
          intro x hx
          rcases Finset.mem_union.mp hx with hx | hx
          · exact Finset.mem_union_right _
              (Finset.mem_insert.mpr (Or.inl (Finset.mem_singleton.mp hx)))
          · exact Finset.mem_union_right _ (Finset.mem_insert_of_mem hx)
        · intro q hq hq'
          rcases List.mem_cons.mp hq with hq | hq
          · exact ih4 q (hq ▸ Finset.mem_singleton_self p) hq'
          · exact ih3 q hq hq'
        · intro q hq hq'
          have : hgt q = cmax := hres q hq
          omega

/-- Minimum of the heights along a list, with base value `c`. -/
def listMin (hgt : Pt → ℤ) (l : List Pt) (c : ℤ) : ℤ :=
  l.foldr (fun p acc => min (hgt p) acc) c

theorem listMin_nil (hgt : Pt → ℤ) (c : ℤ) : listMin hgt [] c = c := rfl

theorem listMin_cons (hgt : Pt → ℤ) (p : Pt) (l : List Pt) (c : ℤ) :
    listMin hgt (p :: l) c = min (hgt p) (listMin hgt l c) := rfl

theorem listMin_le_base (hgt : Pt → ℤ) (l : List Pt) (c : ℤ) :
    listMin hgt l c ≤ c := by
  induction l with
  | nil => exact le_refl c
  | cons p rest ih => exact le_trans (min_le_right _ _) ih

theorem listMin_le_mem (hgt : Pt → ℤ) (l : List Pt) (c : ℤ) (p : Pt)
    (hp : p ∈ l) : listMin hgt l c ≤ hgt p := by
  induction l with
  | nil => exact absurd hp (List.not_mem_nil p)
  | cons q rest ih =>
      rcases List.mem_cons.mp hp with hp | hp
      · rw [hp, listMin_cons]; exact min_le_left _ _
      · rw [listMin_cons]; exact le_trans (min_le_right _ _) (ih hp)

theorem listMin_base_min (hgt : Pt → ℤ) (l : List Pt) (a b : ℤ) :
    listMin hgt l (min a b) = min a (listMin hgt l b) := by
  induction l with
  | nil => rfl
  | cons p rest ih =>
      rw [listMin_cons, listMin_cons, ih, min_left_comm]

theorem listMin_cases (hgt : Pt → ℤ) (l : List Pt) (c : ℤ) :
    listMin hgt l c = c ∨ ∃ p ∈ l, listMin hgt l c = hgt p := by
  induction l with
  | nil => exact Or.inl rfl
  | cons p rest ih =>
      rw [listMin_cons]
      rcases le_or_lt (listMin hgt rest c) (hgt p) with hle | hlt
      · rw [min_eq_right hle]
        rcases ih with h | ⟨q, hq, hq'⟩
        · exact Or.inl h
        · exact Or.inr ⟨q, List.mem_cons_of_mem p hq, hq'⟩
      · rw [min_eq_left (le_of_lt hlt)]
        exact Or.inr ⟨p, List.mem_cons_self p rest, rfl⟩

theorem lowerAux_spec (hgt : Pt → ℤ) (l : List Pt) :
    ∀ (cmin : ℤ) (res : Finset Pt), (∀ p ∈ res, hgt p = cmin) →
      Ramp.lowerAux hgt l cmin res ⊆ res ∪ l.toFinset ∧
      (∀ p ∈ Ramp.lowerAux hgt l cmin res, hgt p = listMin hgt l cmin) ∧
      (∀ p ∈ l, hgt p = listMin hgt l cmin →
        p ∈ Ramp.lowerAux hgt l cmin res) ∧
      (∀ p ∈ res, hgt p = listMin hgt l cmin →
        p ∈ Ramp.lowerAux hgt l cmin res) := by
  induction l with
  | nil =>
      intro cmin res hres
      refine ⟨Finset.subset_union_left, ?_, ?_, ?_⟩
      · intro p hp; rw [listMin_nil]; exact hres p hp
      · intro p hp; exact absurd hp (List.not_mem_nil p)
      · intro p hp _; exact hp
  | cons p rest ih =>
      intro cmin res hres
      have hbase : listMin hgt rest cmin ≤ cmin := listMin_le_base hgt rest cmin
      rcases lt_trichotomy cmin (hgt p) with hlt | heq | hgtc
      · -- skipped: strictly above the running minimum
        have hM : listMin hgt (p :: rest) cmin = listMin hgt rest cmin := by
          rw [listMin_cons]
          exact min_eq_right (le_trans hbase (le_of_lt hlt))
        have hR : Ramp.lowerAux hgt (p :: rest) cmin res
            = Ramp.lowerAux hgt rest cmin res := by
          rw [Ramp.lowerAux, if_pos hlt]
        obtain ⟨ih1, ih2, ih3, ih4⟩ := ih cmin res hres
        rw [hR, hM]
        refine ⟨ih1.trans ?_, ih2, ?_, ih4⟩
        · rw [List.toFinset_cons]
          exact Finset.union_subset_union (le_refl res)
            (Finset.subset_insert _ _)
        · intro q hq hq'
          rcases List.mem_cons.mp hq with hq | hq
          · subst hq
            exact absurd hq' (by omega)
          · exact ih3 q hq hq'
      · -- tie: added to the running result
        have heq' : hgt p = cmin := heq.symm
        have hM : listMin hgt (p :: rest) cmin = listMin hgt rest cmin := by
          rw [listMin_cons]
          exact min_eq_right (heq' ▸ hbase)
        have hR : Ramp.lowerAux hgt (p :: rest) cmin res
            = Ramp.lowerAux hgt rest cmin (insert p res) := by
          rw [Ramp.lowerAux, if_neg (by omega), if_pos heq']
        have hres' : ∀ q ∈ insert p res, hgt q = cmin := by
          intro q hq
          rcases Finset.mem_insert.mp hq with hq | hq
          · rw [hq, heq']
          · exact hres q hq
        obtain ⟨ih1, ih2, ih3, ih4⟩ := ih cmin (insert p res) hres'
        rw [hR, hM]
        refine ⟨ih1.trans ?_, ih2, ?_, ?_⟩
        · rw [List.toFinset_cons]
          intro x hx
          rcases Finset.mem_union.mp hx with hx | hx
          · rcases Finset.mem_insert.mp hx with hx | hx
            · exact Finset.mem_union_right _ (hx ▸ Finset.mem_insert_self _ _)
            · exact Finset.mem_union_left _ hx
          · exact Finset.mem_union_right _ (Finset.mem_insert_of_mem hx)
        · intro q hq hq'
          rcases List.mem_cons.mp hq with hq | hq
          · exact ih4 q (hq ▸ Finset.mem_insert_self p res) hq'
          · exact ih3 q hq hq'
        · intro q hq hq'
          exact ih4 q (Finset.mem_insert_of_mem hq) hq'
      · -- strictly lower: the running state resets to this point
        have hMmin : min (hgt p) cmin = hgt p := min_eq_left (le_of_lt hgtc)
        have hM : listMin hgt rest (hgt p)
            = listMin hgt (p :: rest) cmin := by
          rw [listMin_cons]
          conv_lhs => rw [← hMmin]
          rw [listMin_base_min]
        have hR : Ramp.lowerAux hgt (p :: rest) cmin res
            = Ramp.lowerAux hgt rest (hgt p) {p} := by
          rw [Ramp.lowerAux, if_neg (by omega), if_neg (by omega)]
        have hres' : ∀ q ∈ ({p} : Finset Pt), hgt q = hgt p := by
          intro q hq
          rw [Finset.mem_singleton.mp hq]
        obtain ⟨ih1, ih2, ih3, ih4⟩ := ih (hgt p) {p} hres'
        rw [hR, ← hM]
        have hple : listMin hgt rest (hgt p) ≤ hgt p :=
          listMin_le_base hgt rest (hgt p)
        refine ⟨ih1.trans ?_, ih2, ?_, ?_⟩
        · rw [List.toFinset_cons]
          intro x hx
          rcases Finset.mem_union.mp hx with hx | hx
          · exact Finset.mem_union_right _
              (Finset.mem_insert.mpr (Or.inl (Finset.mem_singleton.mp hx)))
          · exact Finset.mem_union_right _ (Finset.mem_insert_of_mem hx)
        · intro q hq hq'
          rcases List.mem_cons.mp hq with hq | hq
          · exact ih4 q (hq ▸ Finset.mem_singleton_self p) hq'
          · exact ih3 q hq hq'
        · intro q hq hq'
          have : hgt q = cmin := hres q hq
          omega

namespace Ramp

theorem upper_subset (r : Ramp) : r.upper ⊆ r.pts := by
  have h := (upperAux_spec r.height (enum r.pts) (-10000) ∅ (by simp)).1
  rwa [Finset.empty_union, enum_toFinset] at h

theorem upper_isMax (r : Ramp) :
    ∀ p ∈ r.upper, ∀ q ∈ r.pts, r.height q ≤ r.height p := by
  obtain ⟨-, h2, -, -⟩ :=
    upperAux_spec r.height (enum r.pts) (-10000) ∅ (by simp)
  intro p hp q hq
  rw [h2 p hp]
  exact le_listMax_mem r.height (enum r.pts) (-10000) q
    ((enum_mem _ q).mpr hq)

theorem upper_mem_of_max (r : Ramp)
    (hb : ∀ p ∈ r.pts, -10000 ≤ r.height p) :
    ∀ p ∈ r.pts, (∀ q ∈ r.pts, r.height q ≤ r.height p) → p ∈ r.upper := by
  obtain ⟨-, -, h3, -⟩ :=
    upperAux_spec r.height (enum r.pts) (-10000) ∅ (by simp)
  intro p hp hmax
  have hpl : p ∈ enum r.pts := (enum_mem _ p).mpr hp
  apply h3 p hpl
  have hle : r.height p ≤ listMax r.height (enum r.pts) (-10000) :=
    le_listMax_mem r.height (enum r.pts) (-10000) p hpl
  rcases listMax_cases r.height (enum r.pts) (-10000) with hc | ⟨q, hq, hq'⟩
  · have := hb p hp
    omega
  · have := hmax q ((enum_mem _ q).mp hq)
    omega

theorem lower_subset (r : Ramp) : r.lower ⊆ r.pts := by
  have h := (lowerAux_spec r.height (enum r.pts) 10000 ∅ (by simp)).1
  rwa [Finset.empty_union, enum_toFinset] at h

theorem lower_isMin (r : Ramp) :
    ∀ p ∈ r.lower, ∀ q ∈ r.pts, r.height p ≤ r.height q := by
  obtain ⟨-, h2, -, -⟩ :=
    lowerAux_spec r.height (enum r.pts) 10000 ∅ (by simp)
  intro p hp q hq
  rw [h2 p hp]
  exact listMin_le_mem r.height (enum r.pts) 10000 q
    ((enum_mem _ q).mpr hq)

theorem lower_mem_of_min (r : Ramp)
    (hb : ∀ p ∈ r.pts, r.height p ≤ 10000) :
    ∀ p ∈ r.pts, (∀ q ∈ r.pts, r.height p ≤ r.height q) → p ∈ r.lower := by
  obtain ⟨-, -, h3, -⟩ :=
    lowerAux_spec r.height (enum r.pts) 10000 ∅ (by simp)
  intro p hp hmin
  have hpl : p ∈ enum r.pts := (enum_mem _ p).mpr hp
  apply h3 p hpl
  have hle : listMin r.height (enum r.pts) 10000 ≤ r.height p :=
    listMin_le_mem r.height (enum r.pts) 10000 p hpl
  rcases listMin_cases r.height (enum r.pts) 10000 with hc | ⟨q, hq, hq'⟩
  · have := hb p hp
    omega
  · have := hmin q ((enum_mem _ q).mp hq)
    omega

end Ramp

/-! ### Exact real geometry for the wall-placement engine -/

abbrev RP := ℝ × ℝ

/-- A grid point as an exact real pair. -/
noncomputable def ptR (p : Pt) : RP := ((p.1 : ℝ), (p.2 : ℝ))

/-- A rational pair as an exact real pair. -/
noncomputable def qR (a : ℚ × ℚ) : RP := ((a.1 : ℝ), (a.2 : ℝ))

/-- Modelled from the spec: `Point2.offset` (module `sc2/position.py`, not
under `src/`), "point offset by a real-valued vector". -/
def offsetR (p : RP) (v : ℝ × ℝ) : RP := (p.1 + v.1, p.2 + v.2)

/-- Modelled from the spec: squared distance between points
(`Point2._distance_squared`). -/
def sqdistR (a b : RP) : ℝ := (a.1 - b.1) ^ 2 + (a.2 - b.2) ^ 2

/-- Modelled from the spec: Euclidean distance between points
(`Point2.distance_to`). -/
noncomputable def distR (a b : RP) : ℝ := Real.sqrt (sqdistR a b)

/-- Modelled from the spec: `Point2.towards`, "move toward interpolation by
a scalar distance": walk from `a` in the unit direction of `b` for length
`s`. -/
noncomputable def towardsR (a b : RP) (s : ℝ) : RP :=
  (a.1 + (b.1 - a.1) / distR a b * s, a.2 + (b.2 - a.2) / distR a b * s)

/-- The two candidate points of a circle-circle intersection with equal
radius `r` around `p1` and `p2`: the midpoint shifted by
`√(r² − (d/2)²)` along the unit perpendicular of `p2 − p1`, both ways. -/
noncomputable def interPts (p1 p2 : RP) (r : ℝ) : RP × RP :=
  ((((p1.1 + p2.1) / 2) + Real.sqrt (r ^ 2 - (distR p1 p2 / 2) ^ 2) *
      ((p2.2 - p1.2) / distR p1 p2),
    ((p1.2 + p2.2) / 2) + Real.sqrt (r ^ 2 - (distR p1 p2 / 2) ^ 2) *
      (-((p2.1 - p1.1) / distR p1 p2))),
   (((p1.1 + p2.1) / 2) - Real.sqrt (r ^ 2 - (distR p1 p2 / 2) ^ 2) *
      ((p2.2 - p1.2) / distR p1 p2),
    ((p1.2 + p2.2) / 2) - Real.sqrt (r ^ 2 - (distR p1 p2 / 2) ^ 2) *
      (-((p2.1 - p1.1) / distR p1 p2))))

/-- Modelled from the spec: `Point2.circle_intersection` (module
`sc2/position.py`, not under `src/`): "with a = d/2 and h = √(r² − a²), the
intersections lie along the line through p1,p2 at the midpoint ± h
perpendicular; fails if d > 2r or d == 0". -/
noncomputable def circle_intersection (p1 p2 : RP) (r : ℝ) :
    Option (RP × RP) :=
  if distR p1 p2 = 0 ∨ 2 * r < distR p1 p2 then none
  else some (interPts p1 p2 r)

theorem circle_intersection_eq (p1 p2 : RP) (r : ℝ)
    (hcond : ¬(distR p1 p2 = 0 ∨ 2 * r < distR p1 p2)) :
    circle_intersection p1 p2 r = some (interPts p1 p2 r) := by
  rw [circle_intersection, if_neg hcond]

/-- `max(intersects, key=lambda p: p._distance_squared(anyLowerPoint))` over
the two candidates, enumerated first-to-second: the second candidate wins
only when strictly farther. -/
noncomputable def farther (L : RP) (c : RP × RP) : RP :=
  if sqdistR c.1 L < sqdistR c.2 L then c.2 else c.1

/-- `max(self.corner_depots, key=lambda depot: depot.x)` over the two corner
candidates, enumerated first-to-second. -/
noncomputable def maxByX (c : RP × RP) : RP :=
  if c.1.1 < c.2.1 then c.2 else c.1

/-- Failure of a wall-placement query: either the degenerate-ramp-shape
error (`raise Exception("Not implemented. Trying to access a ramp that has
a wrong amount of upper points.")`) or a geometric failure inside
`circle_intersection` (its asserts: coincident centres or too-distant
centres). -/
inductive WallError where
  | degenerate : WallError
  | geometric : WallError
deriving DecidableEq

namespace Ramp

/-- `next(iter(self.lower))`, embedded as the first point of the canonical
enumeration of `lower`. -/
def anyLower (r : Ramp) : Pt := pick r.lower

/-- The sub-cell centering offset `(self.x_offset, self.y_offset)
= (0.5, -0.5)` applied to an upper point. -/
noncomputable def shift (p : Pt) : RP := offsetR (ptR p) (1 / 2, -(1 / 2))

/-- The guard shared by all five wall-placement operations:
`if len(self.upper2_for_ramp_wall) == 2:` run the body on the two popped
points, `else raise Exception(...)` — the degenerate-ramp-shape error.  The
cardinality test is embedded as the two-element shape of the canonical
enumeration `upper2List` (the set is the `toFinset` of that duplicate-free
list, so the tests agree). -/
def withUpper2 {α : Type} (r : Ramp) (f : Pt → Pt → Except WallError α) :
    Except WallError α :=
  match r.upper2List with
  | [a, b] => f a b
  | _ => .error .degenerate

/-- `Ramp.barracks_in_middle`. -/
noncomputable def barracks_in_middle (r : Ramp) : Except WallError RP :=
  withUpper2 r fun a b =>
    match circle_intersection (shift a) (shift b) (Real.sqrt 5) with
    | none => .error .geometric
    | some c => .ok (farther (ptR r.anyLower) c)

/-- `Ramp.depot_in_middle`: the same construction with radius `√2.5`. -/
noncomputable def depot_in_middle (r : Ramp) : Except WallError RP :=
  withUpper2 r fun a b =>
    match circle_intersection (shift a) (shift b) (Real.sqrt (5 / 2)) with
    | none => .error .geometric
    | some c => .ok (farther (ptR r.anyLower) c)

/-- `Ramp.corner_depots`: intersect circles of radius `√5` around the
midpoint of the shifted pair (`p1.towards(p2, d / 2)`) and around
`depot_in_middle`; both intersection points are returned. -/
noncomputable def corner_depots (r : Ramp) : Except WallError (RP × RP) :=
  withUpper2 r fun a b =>
    match r.depot_in_middle with
    | .error e => .error e
    | .ok dp =>
        match circle_intersection
            (towardsR (shift a) (shift b) (distR (shift a) (shift b) / 2))
            dp (Real.sqrt 5) with
        | none => .error .geometric
        | some c => .ok c

/-- `Ramp.barracks_can_fit_addon`:
`self.barracks_in_middle.x + 1 > max(self.corner_depots, key=...).x`. -/
noncomputable def barracks_can_fit_addon (r : Ramp) : Except WallError Bool :=
  withUpper2 r fun _ _ =>
    match r.barracks_in_middle, r.corner_depots with
    | .ok bm, .ok c => .ok (decide ((maxByX c).1 < bm.1 + 1))
    | .error e, _ => .error e
    | _, .error e => .error e

/-- `Ramp.barracks_correct_placement`: `barracks_in_middle` unchanged when
the addon fits, shifted by `(-2, 0)` otherwise. -/
noncomputable def barracks_correct_placement (r : Ramp) : Except WallError RP :=
  withUpper2 r fun _ _ =>
    match r.barracks_can_fit_addon, r.barracks_in_middle with
    | .ok true, .ok bm => .ok bm
    | .ok false, .ok bm => .ok (offsetR bm (-2, 0))
    | .error e, _ => .error e
    | _, .error e => .error e

end Ramp

namespace Ramp

theorem upper2List_nodup (r : Ramp) : r.upper2List.Nodup := by
  rw [upper2List]
  by_cases hc : 5 < r.upper.card
  · rw [if_pos hc]; exact List.nodup_nil
  · rw [if_neg hc]
    refine List.Nodup.sublist (List.take_sublist 2 _) ?_
    exact ((perm_sortDesc r.wallKey (enum r.upper)).nodup_iff).mpr
      (enum_nodup r.upper)

theorem upper2_card_eq_length (r : Ramp) :
    r.upper2_for_ramp_wall.card = r.upper2List.length :=
  List.toFinset_card_of_nodup (upper2List_nodup r)

theorem upper2List_length (r : Ramp) (h : r.upper.card ≤ 5) :
    r.upper2List.length = min r.upper.card 2 := by
  rw [upper2List, if_neg (by omega), List.length_take,
    (perm_sortDesc r.wallKey (enum r.upper)).length_eq,
    enum_length, Nat.min_comm]

theorem upper2List_mem_upper (r : Ramp) {p : Pt} (hp : p ∈ r.upper2List) :
    p ∈ r.upper := by
  rw [upper2List] at hp
  by_cases hc : 5 < r.upper.card
  · rw [if_pos hc] at hp
    exact absurd hp (List.not_mem_nil p)
  · rw [if_neg hc] at hp
    have := (perm_sortDesc r.wallKey (enum r.upper)).mem_iff.mp
      (List.mem_of_mem_take hp)
    exact (enum_mem _ p).mp this

theorem upper2_subset (r : Ramp) : r.upper2_for_ramp_wall ⊆ r.upper := by
  intro p hp
  exact upper2List_mem_upper r (List.mem_toFinset.mp hp)

theorem upper2_empty_of_large (r : Ramp) (h : 5 < r.upper.card) :
    r.upper2_for_ramp_wall = ∅ := by
  rw [upper2_for_ramp_wall, upper2List, if_pos h]
  rfl

theorem upper2_farthest (r : Ramp) (h : r.upper.card ≤ 5) :
    ∀ p ∈ r.upper2_for_ramp_wall, ∀ q ∈ r.upper,
      q ∉ r.upper2_for_ramp_wall → r.wallKey q ≤ r.wallKey p := by
  intro p hp q hq hq2
  set l := sortDesc r.wallKey (enum r.upper) with hl
  have hlist : r.upper2List = l.take 2 := by
    rw [upper2List, if_neg (by omega)]
  have hpl : p ∈ l.take 2 := by
    rw [← hlist]
    exact List.mem_toFinset.mp hp
  have hql : q ∈ l :=
    (perm_sortDesc r.wallKey (enum r.upper)).mem_iff.mpr
      ((enum_mem _ q).mpr hq)
  have hqdrop : q ∈ l.drop 2 := by
    rcases List.mem_append.mp ((List.take_append_drop 2 l) ▸ hql) with hqt | hqd
    · exact absurd (List.mem_toFinset.mpr (hlist ▸ hqt)) hq2
    · exact hqd
  have hpair : List.Pairwise (fun a b => r.wallKey b ≤ r.wallKey a) l :=
    pairwise_sortDesc r.wallKey (enum r.upper)
  rw [← List.take_append_drop 2 l] at hpair
  exact (List.pairwise_append.mp hpair).2.2 p hpl q hqdrop

end Ramp

/-- C2.  `upper2_for_ramp_wall` is empty when `upper` exceeds 5 points;
otherwise it keeps `min(|upper|, 2)` points of `upper`, and every kept
point is at least as far (squared distance to `bottom_center`) as every
point of `upper` left out. -/
theorem claimC2 (r : Ramp) :
    (5 < r.upper.card → r.upper2_for_ramp_wall = ∅) ∧
    (r.upper.card ≤ 5 →
      r.upper2_for_ramp_wall ⊆ r.upper ∧
      r.upper2_for_ramp_wall.card = min r.upper.card 2 ∧
      (∀ p ∈ r.upper2_for_ramp_wall, ∀ q ∈ r.upper,
        q ∉ r.upper2_for_ramp_wall → r.wallKey q ≤ r.wallKey p)) :=
  ⟨fun h => Ramp.upper2_empty_of_large r h,
   fun h => ⟨Ramp.upper2_subset r,
     by rw [Ramp.upper2_card_eq_length, Ramp.upper2List_length r h],
     Ramp.upper2_farthest r h⟩⟩

/-- A concrete symmetric two-tile-wide ramp: the two cells at `y = 0` are
the (tied) top at height 1, the two cells at `y = -2` the bottom at
height 0. -/
def rampX : Ramp :=
  ⟨{(0, 0), (1, 0), (0, -2), (1, -2)}, fun p => if p.2 = 0 then 1 else 0⟩

/-- Witness for C2 at the concrete ramp `rampX` (whose `upper` has 2 ≤ 5
points). -/
theorem claimC2_witness :
    rampX.upper2_for_ramp_wall ⊆ rampX.upper ∧
    rampX.upper2_for_ramp_wall.card = min rampX.upper.card 2 ∧
    (∀ p ∈ rampX.upper2_for_ramp_wall, ∀ q ∈ rampX.upper,
      q ∉ rampX.upper2_for_ramp_wall → rampX.wallKey q ≤ rampX.wallKey p) :=
  (claimC2 rampX).2 (by decide)

namespace Ramp

theorem withUpper2_eq {α : Type} (r : Ramp) (f : Pt → Pt → Except WallError α)
    (a b : Pt) (hab : r.upper2List = [a, b]) : withUpper2 r f = f a b := by
  unfold withUpper2
  rw [hab]

theorem withUpper2_degenerate {α : Type} (r : Ramp)
    (f : Pt → Pt → Except WallError α) (h : r.upper2List.length ≠ 2) :
    withUpper2 r f = .error .degenerate := by
  unfold withUpper2
  cases hl : r.upper2List with
  | nil => rfl
  | cons a t =>
      cases t with
      | nil => rfl
      | cons b t2 =>
          cases t2 with
          | nil => exact absurd (by rw [hl]; rfl) h
          | cons c t3 => rfl

theorem geo_branch_ne (r : Ramp) (rad : ℝ) (a b : Pt) :
    (match circle_intersection (shift a) (shift b) rad with
      | none => (.error .geometric : Except WallError RP)
      | some c => .ok (farther (ptR r.anyLower) c)) ≠ .error .degenerate := by
  cases circle_intersection (shift a) (shift b) rad <;> simp

theorem not_degenerate_aux (r : Ramp) (a b : Pt)
    (hab : r.upper2List = [a, b]) :
    r.barracks_in_middle ≠ .error .degenerate ∧
    r.depot_in_middle ≠ .error .degenerate ∧
    r.corner_depots ≠ .error .degenerate ∧
    r.barracks_can_fit_addon ≠ .error .degenerate ∧
    r.barracks_correct_placement ≠ .error .degenerate := by
  have hbarr : r.barracks_in_middle ≠ .error .degenerate := by
    unfold barracks_in_middle
    rw [withUpper2_eq r _ a b hab]
    exact geo_branch_ne r (Real.sqrt 5) a b
  have hdep : r.depot_in_middle ≠ .error .degenerate := by
    unfold depot_in_middle
    rw [withUpper2_eq r _ a b hab]
    exact geo_branch_ne r (Real.sqrt (5 / 2)) a b
  have hcorn : r.corner_depots ≠ .error .degenerate := by
    unfold corner_depots
    rw [withUpper2_eq r _ a b hab]
    intro hcontra
    split at hcontra
    · rename_i e heq
      rw [Except.error.inj hcontra] at heq
      exact hdep heq
    · split at hcontra <;> simp at hcontra
  have hfit : r.barracks_can_fit_addon ≠ .error .degenerate := by
    unfold barracks_can_fit_addon
    rw [withUpper2_eq r _ a b hab]
    cases hb : r.barracks_in_middle with
    | error e =>
        cases e with
        | degenerate => exact absurd hb hbarr
        | geometric => simp
    | ok bm =>
        cases hc : r.corner_depots with
        | error e =>
            cases e with
            | degenerate => exact absurd hc hcorn
            | geometric => simp
        | ok c => simp
  have hcp : r.barracks_correct_placement ≠ .error .degenerate := by
    unfold barracks_correct_placement
    rw [withUpper2_eq r _ a b hab]
    cases hf : r.barracks_can_fit_addon with
    | error e =>
        cases e with
        | degenerate => exact absurd hf hfit
        | geometric => simp
    | ok v =>
        cases hb : r.barracks_in_middle with
        | error e =>
            cases e with
            | degenerate => exact absurd hb hbarr
            | geometric => cases v <;> simp
        | ok bm => cases v <;> simp
  exact ⟨hbarr, hdep, hcorn, hfit, hcp⟩

end Ramp

/-- C3.  Each of the five wall-placement operations fails with the
degenerate-ramp-shape error exactly when `upper2_for_ramp_wall` does not
have exactly 2 points. -/
theorem claimC3 (r : Ramp) :
    (r.barracks_in_middle = .error .degenerate ↔
      r.upper2_for_ramp_wall.card ≠ 2) ∧
    (r.depot_in_middle = .error .degenerate ↔
      r.upper2_for_ramp_wall.card ≠ 2) ∧
    (r.corner_depots = .error .degenerate ↔
      r.upper2_for_ramp_wall.card ≠ 2) ∧
    (r.barracks_can_fit_addon = .error .degenerate ↔
      r.upper2_for_ramp_wall.card ≠ 2) ∧
    (r.barracks_correct_placement = .error .degenerate ↔
      r.upper2_for_ramp_wall.card ≠ 2) := by
  by_cases hcard : r.upper2_for_ramp_wall.card = 2
  · have hlen : r.upper2List.length = 2 := by
      rw [← Ramp.upper2_card_eq_length]; exact hcard
    obtain ⟨a, b, hab⟩ := List.length_eq_two.mp hlen
    obtain ⟨h1, h2, h3, h4, h5⟩ := Ramp.not_degenerate_aux r a b hab
    exact ⟨iff_of_false h1 (fun h => h hcard),
      iff_of_false h2 (fun h => h hcard),
      iff_of_false h3 (fun h => h hcard),
      iff_of_false h4 (fun h => h hcard),
      iff_of_false h5 (fun h => h hcard)⟩
  · have hlen : r.upper2List.length ≠ 2 := by
      rw [← Ramp.upper2_card_eq_length]; exact hcard
    refine ⟨iff_of_true ?_ hcard, iff_of_true ?_ hcard, iff_of_true ?_ hcard,
      iff_of_true ?_ hcard, iff_of_true ?_ hcard⟩
    · unfold Ramp.barracks_in_middle
      exact Ramp.withUpper2_degenerate r _ hlen
    · unfold Ramp.depot_in_middle
      exact Ramp.withUpper2_degenerate r _ hlen
    · unfold Ramp.corner_depots
      exact Ramp.withUpper2_degenerate r _ hlen
    · unfold Ramp.barracks_can_fit_addon
      exact Ramp.withUpper2_degenerate r _ hlen
    · unfold Ramp.barracks_correct_placement
      exact Ramp.withUpper2_degenerate r _ hlen

/-- C10.  For `1 ≤ |upper| ≤ 5`, `upper2_for_ramp_wall` has
`min(|upper|, 2)` points; with a single-point `upper` it has one point and
every wall-placement operation fails with the degenerate-ramp-shape error
even though `upper` did not exceed the 5-point cutoff. -/
theorem claimC10 (r : Ramp) (h1 : 1 ≤ r.upper.card) (h5 : r.upper.card ≤ 5) :
    r.upper2_for_ramp_wall.card = min r.upper.card 2 ∧
    (r.upper.card = 1 →
      r.upper2_for_ramp_wall.card = 1 ∧
      r.barracks_in_middle = .error .degenerate ∧
      r.depot_in_middle = .error .degenerate ∧
      r.corner_depots = .error .degenerate ∧
      r.barracks_can_fit_addon = .error .degenerate ∧
      r.barracks_correct_placement = .error .degenerate) := by
  have hc : r.upper2_for_ramp_wall.card = min r.upper.card 2 := by
    rw [Ramp.upper2_card_eq_length, Ramp.upper2List_length r h5]
  refine ⟨hc, fun hone => ?_⟩
  have hcard1 : r.upper2_for_ramp_wall.card = 1 := by
    rw [hc, hone]
    decide
  have hlen : r.upper2List.length ≠ 2 := by
    rw [← Ramp.upper2_card_eq_length, hcard1]
    omega
  refine ⟨hcard1, ?_, ?_, ?_, ?_, ?_⟩
  · unfold Ramp.barracks_in_middle
    exact Ramp.withUpper2_degenerate r _ hlen
  · unfold Ramp.depot_in_middle
    exact Ramp.withUpper2_degenerate r _ hlen
  · unfold Ramp.corner_depots
    exact Ramp.withUpper2_degenerate r _ hlen
  · unfold Ramp.barracks_can_fit_addon
    exact Ramp.withUpper2_degenerate r _ hlen
  · unfold Ramp.barracks_correct_placement
    exact Ramp.withUpper2_degenerate r _ hlen

/-- A ramp with a single strictly highest cell. -/
def rampOne : Ramp := ⟨{(0, 0), (1, 0)}, fun p => if p.1 = 0 then 1 else 0⟩

/-- Witness for C3 at the concrete ramp `rampOne`. -/
theorem claimC3_witness :
    (rampOne.barracks_in_middle = .error .degenerate ↔
      rampOne.upper2_for_ramp_wall.card ≠ 2) ∧
    (rampOne.depot_in_middle = .error .degenerate ↔
      rampOne.upper2_for_ramp_wall.card ≠ 2) ∧
    (rampOne.corner_depots = .error .degenerate ↔
      rampOne.upper2_for_ramp_wall.card ≠ 2) ∧
    (rampOne.barracks_can_fit_addon = .error .degenerate ↔
      rampOne.upper2_for_ramp_wall.card ≠ 2) ∧
    (rampOne.barracks_correct_placement = .error .degenerate ↔
      rampOne.upper2_for_ramp_wall.card ≠ 2) :=
  claimC3 rampOne

/-- Witness for C10 at a concrete ramp whose `upper` has exactly one
point. -/
theorem claimC10_witness :
    rampOne.upper2_for_ramp_wall.card = min rampOne.upper.card 2 ∧
    (rampOne.upper.card = 1 →
      rampOne.upper2_for_ramp_wall.card = 1 ∧
      rampOne.barracks_in_middle = .error .degenerate ∧
      rampOne.depot_in_middle = .error .degenerate ∧
      rampOne.corner_depots = .error .degenerate ∧
      rampOne.barracks_can_fit_addon = .error .degenerate ∧
      rampOne.barracks_correct_placement = .error .degenerate) :=
  claimC10 rampOne (by decide) (by decide)

/-- A one-point region whose height lies below the `-10000` sentinel of
`Ramp.upper`'s running maximum. -/
def rampNeg : Ramp := ⟨{(0, 0)}, fun _ => -10001⟩

/-- Counterexample to C6 as stated: in `rampNeg` the point `(0, 0)` is the
(unique, hence maximum-height) region point, yet `upper()` is empty — the
running maximum starts at the sentinel `-10000` and a point with height
`-10001` is never recorded, so `upper()` misses a maximum-height point. -/
theorem claimC6_counterexample :
    (0, 0) ∈ rampNeg.pts ∧ rampNeg.height (0, 0) = -10001 ∧
    rampNeg.upper = ∅ := by
  refine ⟨by decide, by decide, by decide⟩

/-- C6, amended: the claimed characterization of `upper()`/`lower()` holds
for every region whose heights lie within the sentinels (at least `-10000`
for `upper`, at most `10000` for `lower`) — true in particular for the
byte-valued terrain grids; outside that range the running-extremum
initialization silently drops points.  The subset and extremality parts
hold unconditionally; membership of every extremal point needs the
bounds. -/
theorem claimC6 (r : Ramp)
    (hbU : ∀ p ∈ r.pts, -10000 ≤ r.height p)
    (hbL : ∀ p ∈ r.pts, r.height p ≤ 10000) :
    r.upper ⊆ r.pts ∧ r.lower ⊆ r.pts ∧
    (∀ p ∈ r.upper, ∀ q ∈ r.pts, r.height q ≤ r.height p) ∧
    (∀ p ∈ r.lower, ∀ q ∈ r.pts, r.height p ≤ r.height q) ∧
    (∀ p ∈ r.pts, (∀ q ∈ r.pts, r.height q ≤ r.height p) → p ∈ r.upper) ∧
    (∀ p ∈ r.pts, (∀ q ∈ r.pts, r.height p ≤ r.height q) → p ∈ r.lower) :=
  ⟨Ramp.upper_subset r, Ramp.lower_subset r, Ramp.upper_isMax r,
    Ramp.lower_isMin r, Ramp.upper_mem_of_max r hbU,
    Ramp.lower_mem_of_min r hbL⟩

/-- Witness for the amended C6 at the concrete ramp `rampX`. -/
theorem claimC6_witness :
    rampX.upper ⊆ rampX.pts ∧ rampX.lower ⊆ rampX.pts ∧
    (∀ p ∈ rampX.upper, ∀ q ∈ rampX.pts, rampX.height q ≤ rampX.height p) ∧
    (∀ p ∈ rampX.lower, ∀ q ∈ rampX.pts, rampX.height p ≤ rampX.height q) ∧
    (∀ p ∈ rampX.pts,
      (∀ q ∈ rampX.pts, rampX.height q ≤ rampX.height p) → p ∈ rampX.upper) ∧
    (∀ p ∈ rampX.pts,
      (∀ q ∈ rampX.pts, rampX.height p ≤ rampX.height q) → p ∈ rampX.lower) :=
  claimC6 rampX (by decide) (by decide)

theorem farther_spec (L c1 c2 : RP) :
    (farther L (c1, c2) = c1 ∨ farther L (c1, c2) = c2) ∧
    sqdistR c1 L ≤ sqdistR (farther L (c1, c2)) L ∧
    sqdistR c2 L ≤ sqdistR (farther L (c1, c2)) L := by
  unfold farther
  split_ifs with hlt
  · exact ⟨Or.inr rfl, le_of_lt hlt, le_refl _⟩
  · exact ⟨Or.inl rfl, le_refl _, le_of_not_lt hlt⟩

namespace Ramp

theorem middle_spec (r : Ramp) (a b : Pt) (hab : r.upper2List = [a, b])
    (rad : ℝ) (c1 c2 : RP)
    (hci : circle_intersection (shift a) (shift b) rad = some (c1, c2)) :
    ∃ m, (withUpper2 r fun a b =>
        match circle_intersection (shift a) (shift b) rad with
        | none => Except.error WallError.geometric
        | some c => Except.ok (farther (ptR r.anyLower) c)) = .ok m ∧
      (m = c1 ∨ m = c2) ∧
      sqdistR c1 (ptR r.anyLower) ≤ sqdistR m (ptR r.anyLower) ∧
      sqdistR c2 (ptR r.anyLower) ≤ sqdistR m (ptR r.anyLower) := by
  rw [withUpper2_eq r _ a b hab, hci]
  exact ⟨farther (ptR r.anyLower) (c1, c2), rfl,
    farther_spec (ptR r.anyLower) c1 c2⟩

end Ramp

/-- C4.  When `upper2_for_ramp_wall` has exactly 2 points,
`barracks_in_middle` is — among the two intersection points of the circles
of radius `√5` around the two points each shifted by `(+0.5, −0.5)` — the
one farther by squared distance from the chosen point of `lower()`;
`depot_in_middle` is the same construction with radius `√2.5`.  The
hypothesis that `lower()` is nonempty is implicit in the source: a region
with empty `lower()` cannot even evaluate `upper2_for_ramp_wall` (its
`bottom_center` raises a division-by-zero error). -/
theorem claimC4 (r : Ramp) (hcard : r.upper2_for_ramp_wall.card = 2)
    (hlow : r.lower ≠ ∅) :
    ∃ a b, r.upper2_for_ramp_wall = {a, b} ∧
      ∃ L ∈ r.lower,
        (∀ c1 c2, circle_intersection (Ramp.shift a) (Ramp.shift b)
            (Real.sqrt 5) = some (c1, c2) →
          ∃ m, r.barracks_in_middle = .ok m ∧ (m = c1 ∨ m = c2) ∧
            sqdistR c1 (ptR L) ≤ sqdistR m (ptR L) ∧
            sqdistR c2 (ptR L) ≤ sqdistR m (ptR L)) ∧
        (∀ c1 c2, circle_intersection (Ramp.shift a) (Ramp.shift b)
            (Real.sqrt (5 / 2)) = some (c1, c2) →
          ∃ m, r.depot_in_middle = .ok m ∧ (m = c1 ∨ m = c2) ∧
            sqdistR c1 (ptR L) ≤ sqdistR m (ptR L) ∧
            sqdistR c2 (ptR L) ≤ sqdistR m (ptR L)) := by
  have hlen : r.upper2List.length = 2 := by
    rw [← Ramp.upper2_card_eq_length]; exact hcard
  obtain ⟨a, b, hab⟩ := List.length_eq_two.mp hlen
  refine ⟨a, b, ?_, r.anyLower, pick_mem r.lower hlow, ?_, ?_⟩
  · rw [Ramp.upper2_for_ramp_wall, hab]
    simp
  · intro c1 c2 hci
    exact Ramp.middle_spec r a b hab (Real.sqrt 5) c1 c2 hci
  · intro c1 c2 hci
    exact Ramp.middle_spec r a b hab (Real.sqrt (5 / 2)) c1 c2 hci

/-! ### Concrete evaluation of the geometry on `rampX` -/

theorem rampX_upper : rampX.upper = {(0, 0), (1, 0)} := by decide

theorem rampX_lower : rampX.lower = {(0, -2), (1, -2)} := by decide

theorem rampX_enum_upper : enum rampX.upper = [(0, 0), (1, 0)] := by decide

theorem rampX_bottom_center : rampX.bottom_center = (1 / 2, -2) := by
  rw [Ramp.bottom_center, rampX_lower, Ramp.centroid,
    Finset.sum_pair (by decide : ((0 : ℤ), (-2 : ℤ)) ≠ (1, -2)),
    Finset.sum_pair (by decide : ((0 : ℤ), (-2 : ℤ)) ≠ (1, -2)),
    Finset.card_pair (by decide : ((0 : ℤ), (-2 : ℤ)) ≠ (1, -2))]
  norm_num

theorem rampX_key0 : rampX.wallKey (0, 0) = 17 / 4 := by
  rw [Ramp.wallKey, Ramp.sqdistQ, rampX_bottom_center, Ramp.ptQ]
  norm_num

theorem rampX_key1 : rampX.wallKey (1, 0) = 17 / 4 := by
  rw [Ramp.wallKey, Ramp.sqdistQ, rampX_bottom_center, Ramp.ptQ]
  norm_num

theorem rampX_upper2List : rampX.upper2List = [(0, 0), (1, 0)] := by
  have hk : rampX.wallKey (1, 0) ≤ rampX.wallKey (0, 0) := by
    rw [rampX_key1, rampX_key0]
  rw [Ramp.upper2List, if_neg (by decide : ¬5 < rampX.upper.card),
    rampX_enum_upper]
  simp only [sortDesc, insertDesc]
  rw [if_pos hk]
  rfl

theorem rampX_upper2_card : rampX.upper2_for_ramp_wall.card = 2 := by
  rw [Ramp.upper2_card_eq_length, rampX_upper2List]
  rfl

/-- Witness for C4 at the concrete ramp `rampX`. -/
theorem claimC4_witness :
    ∃ a b, rampX.upper2_for_ramp_wall = {a, b} ∧
      ∃ L ∈ rampX.lower,
        (∀ c1 c2, circle_intersection (Ramp.shift a) (Ramp.shift b)
            (Real.sqrt 5) = some (c1, c2) →
          ∃ m, rampX.barracks_in_middle = .ok m ∧ (m = c1 ∨ m = c2) ∧
            sqdistR c1 (ptR L) ≤ sqdistR m (ptR L) ∧
            sqdistR c2 (ptR L) ≤ sqdistR m (ptR L)) ∧
        (∀ c1 c2, circle_intersection (Ramp.shift a) (Ramp.shift b)
            (Real.sqrt (5 / 2)) = some (c1, c2) →
          ∃ m, rampX.depot_in_middle = .ok m ∧ (m = c1 ∨ m = c2) ∧
            sqdistR c1 (ptR L) ≤ sqdistR m (ptR L) ∧
            sqdistR c2 (ptR L) ≤ sqdistR m (ptR L)) :=
  claimC4 rampX rampX_upper2_card (by decide)

theorem maxByX_fst (cd : RP × RP) : (maxByX cd).1 = max cd.1.1 cd.2.1 := by
  unfold maxByX
  split_ifs with hlt
  · exact (max_eq_right (le_of_lt hlt)).symm
  · exact (max_eq_left (le_of_not_lt hlt)).symm

/-- C7.  With exactly two `upper2_for_ramp_wall` points and both derived
positions available, `barracks_can_fit_addon` is true exactly when
`barracks_in_middle.x + 1` strictly exceeds the maximum corner-depot x
coordinate, and `barracks_correct_placement` returns `barracks_in_middle`
unchanged when the addon fits and shifted by `(−2, 0)` otherwise. -/
theorem claimC7 (r : Ramp) (bm : RP) (cd : RP × RP)
    (hcard : r.upper2_for_ramp_wall.card = 2)
    (hbm : r.barracks_in_middle = .ok bm)
    (hcd : r.corner_depots = .ok cd) :
    (r.barracks_can_fit_addon = .ok true ↔ bm.1 + 1 > max cd.1.1 cd.2.1) ∧
    (r.barracks_can_fit_addon = .ok false ↔ ¬(bm.1 + 1 > max cd.1.1 cd.2.1)) ∧
    (bm.1 + 1 > max cd.1.1 cd.2.1 →
      r.barracks_correct_placement = .ok bm) ∧
    (¬(bm.1 + 1 > max cd.1.1 cd.2.1) →
      r.barracks_correct_placement = .ok (bm.1 - 2, bm.2)) := by
  have hlen : r.upper2List.length = 2 := by
    rw [← Ramp.upper2_card_eq_length]; exact hcard
  obtain ⟨a, b, hab⟩ := List.length_eq_two.mp hlen
  have hfit : r.barracks_can_fit_addon
      = .ok (decide (max cd.1.1 cd.2.1 < bm.1 + 1)) := by
    unfold Ramp.barracks_can_fit_addon
    rw [Ramp.withUpper2_eq r _ a b hab, hbm, hcd]
    show Except.ok (decide ((maxByX cd).1 < bm.1 + 1)) = _
    rw [maxByX_fst]
  constructor
  · rw [hfit]
    simp [GT.gt, decide_eq_true_iff]
  constructor
  · rw [hfit]
    simp [GT.gt, decide_eq_false_iff_not]
  constructor
  · intro hgt
    unfold Ramp.barracks_correct_placement
    rw [Ramp.withUpper2_eq r _ a b hab, hfit, hbm,
      decide_eq_true (by exact hgt)]
  · intro hngt
    unfold Ramp.barracks_correct_placement
    rw [Ramp.withUpper2_eq r _ a b hab, hfit, hbm,
      decide_eq_false (by exact hngt)]
    show Except.ok (offsetR bm (-2, 0)) = Except.ok (bm.1 - 2, bm.2)
    unfold offsetR
    norm_num
    ring

theorem shiftX0 : Ramp.shift ((0 : ℤ), (0 : ℤ)) = ((1 : ℝ) / 2, -(1 / 2)) := by
  unfold Ramp.shift offsetR ptR
  norm_num

theorem shiftX1 : Ramp.shift ((1 : ℤ), (0 : ℤ)) = ((3 : ℝ) / 2, -(1 / 2)) := by
  unfold Ramp.shift offsetR ptR
  norm_num

theorem distX : distR ((1 : ℝ) / 2, -(1 / 2)) ((3 : ℝ) / 2, -(1 / 2)) = 1 := by
  have h : sqdistR ((1 : ℝ) / 2, -(1 / 2)) ((3 : ℝ) / 2, -(1 / 2)) = 1 := by
    unfold sqdistR
    norm_num
  rw [distR, h, Real.sqrt_one]

theorem sqrt5_sq : Real.sqrt 5 ^ 2 = 5 := Real.sq_sqrt (by norm_num)

theorem sqrt52_sq : Real.sqrt (5 / 2) ^ 2 = 5 / 2 := Real.sq_sqrt (by norm_num)

theorem sqrt94 : Real.sqrt ((9 : ℝ) / 4) = 3 / 2 := by
  rw [show (9 : ℝ) / 4 = (3 / 2) ^ 2 by norm_num, Real.sqrt_sq (by norm_num)]

theorem one_le_two_sqrt5 : (1 : ℝ) ≤ 2 * Real.sqrt 5 := by
  nlinarith [Real.sqrt_nonneg 5, Real.sq_sqrt (show (0 : ℝ) ≤ 5 by norm_num)]

theorem one_le_two_sqrt52 : (1 : ℝ) ≤ 2 * Real.sqrt (5 / 2) := by
  nlinarith [Real.sqrt_nonneg (5 / 2),
    Real.sq_sqrt (show (0 : ℝ) ≤ 5 / 2 by norm_num)]

theorem hcondX (rad : ℝ) (hrad : (1 : ℝ) ≤ 2 * rad) :
    ¬(distR ((1 : ℝ) / 2, -(1 / 2)) ((3 : ℝ) / 2, -(1 / 2)) = 0 ∨
      2 * rad < distR ((1 : ℝ) / 2, -(1 / 2)) ((3 : ℝ) / 2, -(1 / 2))) := by
  rw [distX]
  push_neg
  exact ⟨one_ne_zero, hrad⟩

theorem interPtsX (rad : ℝ) :
    interPts ((1 : ℝ) / 2, -(1 / 2)) ((3 : ℝ) / 2, -(1 / 2)) rad =
      ((1, -(1 / 2) - Real.sqrt (rad ^ 2 - 1 / 4)),
       (1, -(1 / 2) + Real.sqrt (rad ^ 2 - 1 / 4))) := by
  unfold interPts
  rw [distX]
  norm_num [Prod.ext_iff]
  ring

theorem rampX_anyLower : rampX.anyLower = (0, -2) := by decide

theorem rampX_depot : rampX.depot_in_middle = Except.ok (1, 1) := by
  have hH : Real.sqrt (Real.sqrt (5 / 2) ^ 2 - 1 / 4) = 3 / 2 := by
    rw [sqrt52_sq, show (5 : ℝ) / 2 - 1 / 4 = 9 / 4 by norm_num, sqrt94]
  unfold Ramp.depot_in_middle
  rw [Ramp.withUpper2_eq rampX _ (0, 0) (1, 0) rampX_upper2List, shiftX0,
    shiftX1, circle_intersection_eq _ _ _ (hcondX _ one_le_two_sqrt52)]
  show Except.ok (farther (ptR rampX.anyLower)
    (interPts ((1 : ℝ) / 2, -(1 / 2)) ((3 : ℝ) / 2, -(1 / 2))
      (Real.sqrt (5 / 2)))) = _
  rw [interPtsX, hH, rampX_anyLower]
  unfold farther
  rw [if_pos (by unfold sqdistR ptR; push_cast; norm_num)]
  simp only [Except.ok.injEq, Prod.mk.injEq]
  norm_num

theorem rampX_barr : rampX.barracks_in_middle
    = Except.ok (1, -(1 / 2) + Real.sqrt (19 / 4)) := by
  have hH : Real.sqrt (Real.sqrt 5 ^ 2 - 1 / 4) = Real.sqrt (19 / 4) := by
    rw [sqrt5_sq]
    norm_num
  unfold Ramp.barracks_in_middle
  rw [Ramp.withUpper2_eq rampX _ (0, 0) (1, 0) rampX_upper2List, shiftX0,
    shiftX1, circle_intersection_eq _ _ _ (hcondX _ one_le_two_sqrt5)]
  show Except.ok (farther (ptR rampX.anyLower)
    (interPts ((1 : ℝ) / 2, -(1 / 2)) ((3 : ℝ) / 2, -(1 / 2))
      (Real.sqrt 5))) = _
  rw [interPtsX, hH, rampX_anyLower]
  unfold farther
  rw [if_pos (by
    unfold sqdistR ptR
    push_cast
    nlinarith [Real.sqrt_pos.mpr (show (0 : ℝ) < 19 / 4 by norm_num)])]

theorem rampX_towards :
    towardsR ((1 : ℝ) / 2, -(1 / 2)) ((3 : ℝ) / 2, -(1 / 2))
      (distR ((1 : ℝ) / 2, -(1 / 2)) ((3 : ℝ) / 2, -(1 / 2)) / 2)
      = (1, -(1 / 2)) := by
  unfold towardsR
  rw [distX]
  norm_num

theorem distX2 : distR ((1 : ℝ), -(1 / 2)) (1, 1) = 3 / 2 := by
  have h : sqdistR ((1 : ℝ), -(1 / 2)) (1, 1) = 9 / 4 := by
    unfold sqdistR
    norm_num
  rw [distR, h, sqrt94]

theorem corner_spec (r : Ramp) (a b : Pt) (hab : r.upper2List = [a, b])
    (dp : RP) (hdp : r.depot_in_middle = .ok dp) (cd : RP × RP)
    (hci : circle_intersection
      (towardsR (Ramp.shift a) (Ramp.shift b)
        (distR (Ramp.shift a) (Ramp.shift b) / 2))
      dp (Real.sqrt 5) = some cd) :
    r.corner_depots = .ok cd := by
  unfold Ramp.corner_depots
  rw [Ramp.withUpper2_eq r _ a b hab, hdp]
  simp only [hci]

theorem rampX_corner : rampX.corner_depots
    = Except.ok (interPts ((1 : ℝ), -(1 / 2)) (1, 1) (Real.sqrt 5)) := by
  have hc2 : ¬(distR ((1 : ℝ), -(1 / 2)) (1, 1) = 0 ∨
      2 * Real.sqrt 5 < distR ((1 : ℝ), -(1 / 2)) (1, 1)) := by
    rw [distX2]
    push_neg
    refine ⟨by norm_num, ?_⟩
    nlinarith [Real.sqrt_nonneg 5, Real.sq_sqrt (show (0 : ℝ) ≤ 5 by norm_num)]
  refine corner_spec rampX (0, 0) (1, 0) rampX_upper2List (1, 1) rampX_depot
    _ ?_
  rw [shiftX0, shiftX1, rampX_towards, circle_intersection_eq _ _ _ hc2]

/-- Witness for C7 at the concrete ramp `rampX`. -/
theorem claimC7_witness :
    ∃ (bm : RP) (cd : RP × RP),
      rampX.barracks_in_middle = Except.ok bm ∧
      rampX.corner_depots = Except.ok cd ∧
      ((rampX.barracks_can_fit_addon = .ok true ↔
          bm.1 + 1 > max cd.1.1 cd.2.1) ∧
        (rampX.barracks_can_fit_addon = .ok false ↔
          ¬(bm.1 + 1 > max cd.1.1 cd.2.1)) ∧
        (bm.1 + 1 > max cd.1.1 cd.2.1 →
          rampX.barracks_correct_placement = .ok bm) ∧
        (¬(bm.1 + 1 > max cd.1.1 cd.2.1) →
          rampX.barracks_correct_placement = .ok (bm.1 - 2, bm.2))) :=
  ⟨_, _, rampX_barr, rampX_corner,
    claimC7 rampX _ _ rampX_upper2_card rampX_barr rampX_corner⟩

/-! ### Strict selection of the far intersection candidate (C5) -/

theorem int_cases_sq_one (a b : ℤ) (h : a ^ 2 + b ^ 2 = 1) :
    (a = 0 ∧ (b = 1 ∨ b = -1)) ∨ (b = 0 ∧ (a = 1 ∨ a = -1)) := by
  have ha : -1 ≤ a ∧ a ≤ 1 := by
    constructor <;> nlinarith [sq_nonneg (a + 1), sq_nonneg (a - 1), sq_nonneg b]
  have hb : -1 ≤ b ∧ b ≤ 1 := by
    constructor <;> nlinarith [sq_nonneg (b + 1), sq_nonneg (b - 1), sq_nonneg a]
  obtain ⟨ha1, ha2⟩ := ha
  obtain ⟨hb1, hb2⟩ := hb
  interval_cases a <;> interval_cases b <;> simp_all

theorem two_int_add_one_ne (n : ℤ) : ((2 * n : ℤ) : ℝ) + 1 ≠ 0 := by
  intro h
  have h2 : ((2 * n : ℤ) : ℝ) = -1 := by linarith
  have : (2 * n : ℤ) = -1 := by exact_mod_cast h2
  omega

theorem two_int_sub_one_ne (n : ℤ) : ((2 * n : ℤ) : ℝ) - 1 ≠ 0 := by
  intro h
  have h2 : ((2 * n : ℤ) : ℝ) = 1 := by linarith
  have : (2 * n : ℤ) = 1 := by exact_mod_cast h2
  omega

theorem sqdist_shift (x y : Pt) :
    sqdistR (Ramp.shift x) (Ramp.shift y)
      = ((x.1 - y.1 : ℤ) : ℝ) ^ 2 + ((x.2 - y.2 : ℤ) : ℝ) ^ 2 := by
  unfold Ramp.shift offsetR ptR sqdistR
  push_cast
  ring

theorem sqdist_diff_pm (m1 m2 u1 u2 H L1 L2 : ℝ) :
    sqdistR (m1 + H * u1, m2 + H * u2) (L1, L2)
      - sqdistR (m1 - H * u1, m2 - H * u2) (L1, L2)
      = 4 * H * (u1 * (m1 - L1) + u2 * (m2 - L2)) := by
  unfold sqdistR
  ring

theorem middle_strict (r : Ramp) (x y : Pt) (hxy : r.upper2List = [x, y])
    (hdist : (x.1 - y.1) ^ 2 + (x.2 - y.2) ^ 2 = 1)
    (rad : ℝ) (hrad1 : (1 : ℝ) ≤ 2 * rad) (hrad2 : (1 : ℝ) / 4 < rad ^ 2) :
    ∃ c1 c2,
      circle_intersection (Ramp.shift x) (Ramp.shift y) rad = some (c1, c2) ∧
      (((Ramp.withUpper2 r fun a b =>
          match circle_intersection (Ramp.shift a) (Ramp.shift b) rad with
          | none => Except.error WallError.geometric
          | some c => Except.ok (farther (ptR r.anyLower) c)) = .ok c1 ∧
         sqdistR c2 (ptR r.anyLower) < sqdistR c1 (ptR r.anyLower)) ∨
       ((Ramp.withUpper2 r fun a b =>
          match circle_intersection (Ramp.shift a) (Ramp.shift b) rad with
          | none => Except.error WallError.geometric
          | some c => Except.ok (farther (ptR r.anyLower) c)) = .ok c2 ∧
         sqdistR c1 (ptR r.anyLower) < sqdistR c2 (ptR r.anyLower))) := by
  have hsq : sqdistR (Ramp.shift x) (Ramp.shift y) = 1 := by
    rw [sqdist_shift]
    exact_mod_cast hdist
  have hd1 : distR (Ramp.shift x) (Ramp.shift y) = 1 := by
    rw [distR, hsq, Real.sqrt_one]
  have hcond : ¬(distR (Ramp.shift x) (Ramp.shift y) = 0 ∨
      2 * rad < distR (Ramp.shift x) (Ramp.shift y)) := by
    rw [hd1]
    push_neg
    exact ⟨one_ne_zero, hrad1⟩
  -- explicit coordinates
  set H := Real.sqrt (rad ^ 2 - (1 / 2) ^ 2) with hHdef
  have hHpos : 0 < H := by
    apply Real.sqrt_pos.mpr
    nlinarith
  set M1 : ℝ := ((Ramp.shift x).1 + (Ramp.shift y).1) / 2 with hM1
  set M2 : ℝ := ((Ramp.shift x).2 + (Ramp.shift y).2) / 2 with hM2
  set U1 : ℝ := ((y.2 - x.2 : ℤ) : ℝ) with hU1
  set U2 : ℝ := ((x.1 - y.1 : ℤ) : ℝ) with hU2
  have hip : interPts (Ramp.shift x) (Ramp.shift y) rad =
      ((M1 + H * U1, M2 + H * U2), (M1 - H * U1, M2 - H * U2)) := by
    unfold interPts
    rw [hd1]
    have hy2 : ((Ramp.shift y).2 - (Ramp.shift x).2) / 1 = U1 := by
      rw [hU1]
      unfold Ramp.shift offsetR ptR
      push_cast
      ring
    have hy1 : -(((Ramp.shift y).1 - (Ramp.shift x).1) / 1) = U2 := by
      rw [hU2]
      unfold Ramp.shift offsetR ptR
      push_cast
      ring
    rw [hy2, hy1]
  have hci : circle_intersection (Ramp.shift x) (Ramp.shift y) rad
      = some ((M1 + H * U1, M2 + H * U2), (M1 - H * U1, M2 - H * U2)) := by
    rw [circle_intersection_eq _ _ _ hcond, hip]
  set L1 : ℝ := ((r.anyLower.1 : ℤ) : ℝ) with hL1
  set L2 : ℝ := ((r.anyLower.2 : ℤ) : ℝ) with hL2
  have hLpt : ptR r.anyLower = (L1, L2) := rfl
  -- the inner product that separates the two candidates is nonzero
  have hdot : U1 * (M1 - L1) + U2 * (M2 - L2) ≠ 0 := by
    have hM1e : M1 = (((x.1 + y.1 : ℤ) : ℝ) + 1) / 2 := by
      rw [hM1]
      unfold Ramp.shift offsetR ptR
      push_cast
      ring
    have hM2e : M2 = (((x.2 + y.2 : ℤ) : ℝ) - 1) / 2 := by
      rw [hM2]
      unfold Ramp.shift offsetR ptR
      push_cast
      ring
    rcases int_cases_sq_one _ _ hdist with ⟨hd1', hd2'⟩ | ⟨hd2', hd1'⟩
    · -- x.1 = y.1, x.2 - y.2 = ±1: the separating term is M1 - L1
      have hxx : x.1 = y.1 := by omega
      have hM1ne : M1 - L1 ≠ 0 := by
        rw [hM1e, hL1]
        have : ((x.1 + y.1 : ℤ) : ℝ) = ((2 * x.1 : ℤ) : ℝ) := by
          rw [hxx]
          push_cast
          ring
        rw [this]
        intro hzero
        apply two_int_add_one_ne (x.1 - r.anyLower.1)
        push_cast
        push_cast at hzero
        linarith
      rcases hd2' with hb | hb
      · -- x.2 - y.2 = 1, so U1 = -1, U2 = 0
        have hu1 : U1 = -1 := by
          rw [hU1, show y.2 - x.2 = -1 by omega]
          norm_num
        have hu2 : U2 = 0 := by
          rw [hU2, hd1']
          norm_num
        rw [hu1, hu2]
        intro hzero
        apply hM1ne
        linarith
      · have hu1 : U1 = 1 := by
          rw [hU1, show y.2 - x.2 = 1 by omega]
          norm_num
        have hu2 : U2 = 0 := by
          rw [hU2, hd1']
          norm_num
        rw [hu1, hu2]
        intro hzero
        apply hM1ne
        linarith
    · -- x.2 = y.2, x.1 - y.1 = ±1: the separating term is M2 - L2
      have hxx : x.2 = y.2 := by omega
      have hM2ne : M2 - L2 ≠ 0 := by
        rw [hM2e, hL2]
        have : ((x.2 + y.2 : ℤ) : ℝ) = ((2 * x.2 : ℤ) : ℝ) := by
          rw [hxx]
          push_cast
          ring
        rw [this]
        intro hzero
        apply two_int_sub_one_ne (x.2 - r.anyLower.2)
        push_cast
        push_cast at hzero
        linarith
      have hu1 : U1 = 0 := by
        rw [hU1, show y.2 - x.2 = 0 by omega]
        norm_num
      rcases hd1' with ha | ha
      · have hu2 : U2 = 1 := by
          rw [hU2, ha]
          norm_num
        rw [hu1, hu2]
        intro hzero
        apply hM2ne
        linarith
      · have hu2 : U2 = -1 := by
          rw [hU2, ha]
          norm_num
        rw [hu1, hu2]
        intro hzero
        apply hM2ne
        linarith
  have hdiff : sqdistR (M1 + H * U1, M2 + H * U2) (ptR r.anyLower)
      - sqdistR (M1 - H * U1, M2 - H * U2) (ptR r.anyLower)
      = 4 * H * (U1 * (M1 - L1) + U2 * (M2 - L2)) := by
    rw [hLpt]
    exact sqdist_diff_pm M1 M2 U1 U2 H L1 L2
  have hne : sqdistR (M1 + H * U1, M2 + H * U2) (ptR r.anyLower)
      ≠ sqdistR (M1 - H * U1, M2 - H * U2) (ptR r.anyLower) := by
    intro heq
    have h4 : 4 * H * (U1 * (M1 - L1) + U2 * (M2 - L2)) = 0 := by
      rw [← hdiff, heq]
      ring
    rcases mul_eq_zero.mp h4 with h4' | h4'
    · rcases mul_eq_zero.mp h4' with h4'' | h4''
      · norm_num at h4''
      · exact absurd h4'' (ne_of_gt hHpos)
    · exact hdot h4'
  refine ⟨(M1 + H * U1, M2 + H * U2), (M1 - H * U1, M2 - H * U2), hci, ?_⟩
  have hval : (Ramp.withUpper2 r fun a b =>
      match circle_intersection (Ramp.shift a) (Ramp.shift b) rad with
      | none => Except.error WallError.geometric
      | some c => Except.ok (farther (ptR r.anyLower) c))
      = .ok (farther (ptR r.anyLower)
          ((M1 + H * U1, M2 + H * U2), (M1 - H * U1, M2 - H * U2))) := by
    rw [Ramp.withUpper2_eq r _ x y hxy, hci]
  by_cases hcmp : sqdistR (M1 + H * U1, M2 + H * U2) (ptR r.anyLower)
      < sqdistR (M1 - H * U1, M2 - H * U2) (ptR r.anyLower)
  · refine Or.inr ⟨?_, hcmp⟩
    rw [hval]
    unfold farther
    rw [if_pos hcmp]
  · refine Or.inl ⟨?_, lt_of_le_of_ne (le_of_not_lt hcmp) (Ne.symm hne)⟩
    rw [hval]
    unfold farther
    rw [if_neg hcmp]

theorem upper2_eq_upper_of_two (r : Ramp) (h2 : r.upper.card = 2) :
    r.upper2_for_ramp_wall = r.upper ∧
    ∃ x y, r.upper2List = [x, y] ∧ x ≠ y ∧
      ({x, y} : Finset Pt) = r.upper := by
  have h5 : ¬5 < r.upper.card := by omega
  have hlistfull : r.upper2List = sortDesc r.wallKey (enum r.upper) := by
    rw [Ramp.upper2List, if_neg h5]
    apply List.take_of_length_le
    rw [(perm_sortDesc _ _).length_eq, enum_length, h2]
  have hlen : r.upper2List.length = 2 := by
    rw [hlistfull, (perm_sortDesc _ _).length_eq, enum_length, h2]
  obtain ⟨x, y, hxy⟩ := List.length_eq_two.mp hlen
  have htf : r.upper2_for_ramp_wall = r.upper := by
    rw [Ramp.upper2_for_ramp_wall, hlistfull,
      List.toFinset_eq_of_perm _ _ (perm_sortDesc r.wallKey (enum r.upper)),
      enum_toFinset]
  have hnd : x ≠ y := by
    have hd := Ramp.upper2List_nodup r
    rw [hxy] at hd
    simpa using (List.nodup_cons.mp hd).1
  refine ⟨htf, x, y, hxy, hnd, ?_⟩
  rw [← htf, Ramp.upper2_for_ramp_wall, hxy]
  simp

theorem pair_eq_cases {x y u1 u2 : Pt} (hne : x ≠ y)
    (hpair : ({x, y} : Finset Pt) = {u1, u2}) :
    (x = u1 ∧ y = u2) ∨ (x = u2 ∧ y = u1) := by
  have hx : x ∈ ({u1, u2} : Finset Pt) := by rw [← hpair]; simp
  have hy : y ∈ ({u1, u2} : Finset Pt) := by rw [← hpair]; simp
  simp only [Finset.mem_insert, Finset.mem_singleton] at hx hy
  rcases hx with hx | hx <;> rcases hy with hy | hy
  · exact absurd (hx.trans hy.symm) hne
  · exact Or.inl ⟨hx, hy⟩
  · exact Or.inr ⟨hx, hy⟩
  · exact absurd (hx.trans hy.symm) hne

/-- C5, amended.  For a symmetric two-tile-wide ramp top (`upper` has
exactly two points, same height, one grid unit apart),
`upper2_for_ramp_wall` equals `upper` itself, and `barracks_in_middle` and
`depot_in_middle` each return the intersection candidate that is *strictly*
farther (by squared distance) from the chosen lower reference point than
the alternate candidate.  (The original "strictly between the ramp top and
`bottom_center`" is refuted by `claimC5_counterexample`: the chosen
candidate lies on the high-ground side of the ramp crest, away from
`bottom_center`, not between the two centres.) -/
theorem claimC5 (r : Ramp) (u1 u2 : Pt)
    (hU : r.upper = {u1, u2}) (hneu : u1 ≠ u2)
    (hh : r.height u1 = r.height u2)
    (hdist : (u1.1 - u2.1) ^ 2 + (u1.2 - u2.2) ^ 2 = 1)
    (hlow : r.lower ≠ ∅) :
    r.upper2_for_ramp_wall = r.upper ∧
    (∃ L ∈ r.lower, ∃ x y, r.upper2List = [x, y] ∧
      ({x, y} : Finset Pt) = r.upper ∧
      (∃ c1 c2, circle_intersection (Ramp.shift x) (Ramp.shift y)
          (Real.sqrt 5) = some (c1, c2) ∧
        ((r.barracks_in_middle = .ok c1 ∧
            sqdistR c2 (ptR L) < sqdistR c1 (ptR L)) ∨
         (r.barracks_in_middle = .ok c2 ∧
            sqdistR c1 (ptR L) < sqdistR c2 (ptR L)))) ∧
      (∃ c1 c2, circle_intersection (Ramp.shift x) (Ramp.shift y)
          (Real.sqrt (5 / 2)) = some (c1, c2) ∧
        ((r.depot_in_middle = .ok c1 ∧
            sqdistR c2 (ptR L) < sqdistR c1 (ptR L)) ∨
         (r.depot_in_middle = .ok c2 ∧
            sqdistR c1 (ptR L) < sqdistR c2 (ptR L))))) := by
  have h2 : r.upper.card = 2 := by
    rw [hU]
    exact Finset.card_pair hneu
  obtain ⟨htf, x, y, hxy, hnd, hset⟩ := upper2_eq_upper_of_two r h2
  have hd' : (x.1 - y.1) ^ 2 + (x.2 - y.2) ^ 2 = 1 := by
    rcases pair_eq_cases hnd (hset.trans hU) with ⟨hx, hy⟩ | ⟨hx, hy⟩
    · rw [hx, hy]
      exact hdist
    · rw [hx, hy]
      linear_combination hdist
  have hbarr := middle_strict r x y hxy hd' (Real.sqrt 5) one_le_two_sqrt5
    (by rw [sqrt5_sq]; norm_num)
  have hdep := middle_strict r x y hxy hd' (Real.sqrt (5 / 2))
    one_le_two_sqrt52 (by rw [sqrt52_sq]; norm_num)
  exact ⟨htf, r.anyLower, pick_mem r.lower hlow, x, y, hxy, hset,
    hbarr, hdep⟩

/-- "A point strictly between" two points (C5's wording): a proper interior
point of the segment from `a` to `b`. -/
def StrictlyBetween (a b p : RP) : Prop :=
  ∃ t : ℝ, 0 < t ∧ t < 1 ∧ p = (a.1 + t * (b.1 - a.1), a.2 + t * (b.2 - a.2))

theorem rampX_top_center : rampX.top_center = (1 / 2, 0) := by
  rw [Ramp.top_center, rampX_upper, Ramp.centroid,
    Finset.sum_pair (by decide : ((0 : ℤ), (0 : ℤ)) ≠ (1, 0)),
    Finset.sum_pair (by decide : ((0 : ℤ), (0 : ℤ)) ≠ (1, 0)),
    Finset.card_pair (by decide : ((0 : ℤ), (0 : ℤ)) ≠ (1, 0))]
  norm_num

/-- Counterexample to C5 as stated: `rampX` is a symmetric two-tile-wide
ramp (two upper points at the same height one grid unit apart), yet neither
`barracks_in_middle` nor `depot_in_middle` lies strictly between the ramp
top (`top_center`) and `bottom_center` — both returned points have
x-coordinate 1 while every point of that segment has x-coordinate 1/2. -/
theorem claimC5_counterexample :
    rampX.upper = {(0, 0), (1, 0)} ∧
    rampX.height (0, 0) = rampX.height (1, 0) ∧
    (((0 : ℤ) - 1) ^ 2 + ((0 : ℤ) - 0) ^ 2 = 1) ∧
    ¬(∃ m, rampX.barracks_in_middle = Except.ok m ∧
        StrictlyBetween (qR rampX.top_center) (qR rampX.bottom_center) m) ∧
    ¬(∃ m, rampX.depot_in_middle = Except.ok m ∧
        StrictlyBetween (qR rampX.top_center) (qR rampX.bottom_center) m) := by
  have hqt : qR rampX.top_center = ((1 : ℝ) / 2, 0) := by
    rw [rampX_top_center]
    unfold qR
    norm_num
  have hqb : qR rampX.bottom_center = ((1 : ℝ) / 2, -2) := by
    rw [rampX_bottom_center]
    unfold qR
    norm_num
  refine ⟨rampX_upper, by decide, by norm_num, ?_, ?_⟩
  · rintro ⟨m, hm, t, ht0, ht1, hmt⟩
    have hm' : ((1 : ℝ), -(1 / 2) + Real.sqrt (19 / 4)) = m :=
      Except.ok.inj (rampX_barr.symm.trans hm)
    rw [hqt, hqb] at hmt
    have h1 : m.1 = 1 / 2 := by
      rw [hmt]
      norm_num
    rw [← hm'] at h1
    norm_num at h1
  · rintro ⟨m, hm, t, ht0, ht1, hmt⟩
    have hm' : ((1 : ℝ), 1) = m := Except.ok.inj (rampX_depot.symm.trans hm)
    rw [hqt, hqb] at hmt
    have h1 : m.1 = 1 / 2 := by
      rw [hmt]
      norm_num
    rw [← hm'] at h1
    norm_num at h1

/-- Witness for the amended C5 at the concrete ramp `rampX`. -/
theorem claimC5_witness :
    rampX.upper2_for_ramp_wall = rampX.upper ∧
    (∃ L ∈ rampX.lower, ∃ x y, rampX.upper2List = [x, y] ∧
      ({x, y} : Finset Pt) = rampX.upper ∧
      (∃ c1 c2, circle_intersection (Ramp.shift x) (Ramp.shift y)
          (Real.sqrt 5) = some (c1, c2) ∧
        ((rampX.barracks_in_middle = .ok c1 ∧
            sqdistR c2 (ptR L) < sqdistR c1 (ptR L)) ∨
         (rampX.barracks_in_middle = .ok c2 ∧
            sqdistR c1 (ptR L) < sqdistR c2 (ptR L)))) ∧
      (∃ c1 c2, circle_intersection (Ramp.shift x) (Ramp.shift y)
          (Real.sqrt (5 / 2)) = some (c1, c2) ∧
        ((rampX.depot_in_middle = .ok c1 ∧
            sqdistR c2 (ptR L) < sqdistR c1 (ptR L)) ∨
         (rampX.depot_in_middle = .ok c2 ∧
            sqdistR c1 (ptR L) < sqdistR c2 (ptR L))))) :=
  claimC5 rampX (0, 0) (1, 0) rampX_upper (by decide) (by decide)
    (by norm_num) (by decide)

/-! ### The memoization cache (C9) -/

/-- Modelled from the spec: the per-`Ramp` memoization state of the caching
decorators `property_immutable_cache` / `property_mutable_cache` (module
`sc2/cache.py`, which is not under `src/`): one internal field per derived
value, holding "not yet computed" or "computed(value)". -/
structure RampCache where
  cPoints : Option (Finset Pt)
  cUpper : Option (Finset Pt)
  cLower : Option (Finset Pt)
  cUpper2 : Option (Finset Pt)
  cTop : Option (ℚ × ℚ)
  cBottom : Option (ℚ × ℚ)
  cBarracks : Option (Except WallError RP)
  cDepot : Option (Except WallError RP)
  cCorner : Option (Except WallError (RP × RP))
  cFit : Option (Except WallError Bool)
  cCorrect : Option (Except WallError RP)

def emptyCache : RampCache :=
  ⟨none, none, none, none, none, none, none, none, none, none, none⟩

/-- Modelled from the spec: each cached accessor computes on first access,
stores the value, and returns the stored value (for mutable containers, a
fresh copy of it) on every access.  In the pure embedding a fresh copy of a
value is the value itself; a caller that mutates its copy holds a different
value while the cache state is untouched. -/
def cachedPoints (r : Ramp) (s : RampCache) : Finset Pt × RampCache :=
  match s.cPoints with
  | some v => (v, s)
  | none => (r.points, { s with cPoints := some r.points })

def cachedUpper (r : Ramp) (s : RampCache) : Finset Pt × RampCache :=
  match s.cUpper with
  | some v => (v, s)
  | none => (r.upper, { s with cUpper := some r.upper })

def cachedLower (r : Ramp) (s : RampCache) : Finset Pt × RampCache :=
  match s.cLower with
  | some v => (v, s)
  | none => (r.lower, { s with cLower := some r.lower })

def cachedUpper2 (r : Ramp) (s : RampCache) : Finset Pt × RampCache :=
  match s.cUpper2 with
  | some v => (v, s)
  | none => (r.upper2_for_ramp_wall,
      { s with cUpper2 := some r.upper2_for_ramp_wall })

def cachedTopCenter (r : Ramp) (s : RampCache) : (ℚ × ℚ) × RampCache :=
  match s.cTop with
  | some v => (v, s)
  | none => (r.top_center, { s with cTop := some r.top_center })

def cachedBottomCenter (r : Ramp) (s : RampCache) : (ℚ × ℚ) × RampCache :=
  match s.cBottom with
  | some v => (v, s)
  | none => (r.bottom_center, { s with cBottom := some r.bottom_center })

noncomputable def cachedBarracksInMiddle (r : Ramp) (s : RampCache) :
    Except WallError RP × RampCache :=
  match s.cBarracks with
  | some v => (v, s)
  | none => (r.barracks_in_middle,
      { s with cBarracks := some r.barracks_in_middle })

noncomputable def cachedDepotInMiddle (r : Ramp) (s : RampCache) :
    Except WallError RP × RampCache :=
  match s.cDepot with
  | some v => (v, s)
  | none => (r.depot_in_middle, { s with cDepot := some r.depot_in_middle })

noncomputable def cachedCornerDepots (r : Ramp) (s : RampCache) :
    Except WallError (RP × RP) × RampCache :=
  match s.cCorner with
  | some v => (v, s)
  | none => (r.corner_depots, { s with cCorner := some r.corner_depots })

noncomputable def cachedCanFitAddon (r : Ramp) (s : RampCache) :
    Except WallError Bool × RampCache :=
  match s.cFit with
  | some v => (v, s)
  | none => (r.barracks_can_fit_addon,
      { s with cFit := some r.barracks_can_fit_addon })

noncomputable def cachedCorrectPlacement (r : Ramp) (s : RampCache) :
    Except WallError RP × RampCache :=
  match s.cCorrect with
  | some v => (v, s)
  | none => (r.barracks_correct_placement,
      { s with cCorrect := some r.barracks_correct_placement })

/-- Consistency of a cache state: every computed field holds exactly the
pure derived value of the ramp. -/
def CacheOK (r : Ramp) (s : RampCache) : Prop :=
  (∀ v, s.cPoints = some v → v = r.points) ∧
  (∀ v, s.cUpper = some v → v = r.upper) ∧
  (∀ v, s.cLower = some v → v = r.lower) ∧
  (∀ v, s.cUpper2 = some v → v = r.upper2_for_ramp_wall) ∧
  (∀ v, s.cTop = some v → v = r.top_center) ∧
  (∀ v, s.cBottom = some v → v = r.bottom_center) ∧
  (∀ v, s.cBarracks = some v → v = r.barracks_in_middle) ∧
  (∀ v, s.cDepot = some v → v = r.depot_in_middle) ∧
  (∀ v, s.cCorner = some v → v = r.corner_depots) ∧
  (∀ v, s.cFit = some v → v = r.barracks_can_fit_addon) ∧
  (∀ v, s.cCorrect = some v → v = r.barracks_correct_placement)

theorem cachedPoints_spec (r : Ramp) (s : RampCache) (hok : CacheOK r s) :
    (cachedPoints r s).1 = r.points ∧ CacheOK r (cachedPoints r s).2 := by
  obtain ⟨h1, h2, h3, h4, h5, h6, h7, h8, h9, h10, h11⟩ := hok
  cases hs : s.cPoints with
  | some v =>
      simp only [cachedPoints, hs]
      exact ⟨h1 v hs, h1, h2, h3, h4, h5, h6, h7, h8, h9, h10, h11⟩
  | none =>
      simp only [cachedPoints, hs]
      exact ⟨trivial, fun v hv => (Option.some.inj hv).symm,
        h2, h3, h4, h5, h6, h7, h8, h9, h10, h11⟩

theorem cachedUpper_spec (r : Ramp) (s : RampCache) (hok : CacheOK r s) :
    (cachedUpper r s).1 = r.upper ∧ CacheOK r (cachedUpper r s).2 := by
  obtain ⟨h1, h2, h3, h4, h5, h6, h7, h8, h9, h10, h11⟩ := hok
  cases hs : s.cUpper with
  | some v =>
      simp only [cachedUpper, hs]
      exact ⟨h2 v hs, h1, h2, h3, h4, h5, h6, h7, h8, h9, h10, h11⟩
  | none =>
      simp only [cachedUpper, hs]
      exact ⟨trivial, h1, fun v hv => (Option.some.inj hv).symm,
        h3, h4, h5, h6, h7, h8, h9, h10, h11⟩

theorem cachedLower_spec (r : Ramp) (s : RampCache) (hok : CacheOK r s) :
    (cachedLower r s).1 = r.lower ∧ CacheOK r (cachedLower r s).2 := by
  obtain ⟨h1, h2, h3, h4, h5, h6, h7, h8, h9, h10, h11⟩ := hok
  cases hs : s.cLower with
  | some v =>
      simp only [cachedLower, hs]
      exact ⟨h3 v hs, h1, h2, h3, h4, h5, h6, h7, h8, h9, h10, h11⟩
  | none =>
      simp only [cachedLower, hs]
      exact ⟨trivial, h1, h2, fun v hv => (Option.some.inj hv).symm,
        h4, h5, h6, h7, h8, h9, h10, h11⟩

theorem cachedUpper2_spec (r : Ramp) (s : RampCache) (hok : CacheOK r s) :
    (cachedUpper2 r s).1 = r.upper2_for_ramp_wall ∧
    CacheOK r (cachedUpper2 r s).2 := by
  obtain ⟨h1, h2, h3, h4, h5, h6, h7, h8, h9, h10, h11⟩ := hok
  cases hs : s.cUpper2 with
  | some v =>
      simp only [cachedUpper2, hs]
      exact ⟨h4 v hs, h1, h2, h3, h4, h5, h6, h7, h8, h9, h10, h11⟩
  | none =>
      simp only [cachedUpper2, hs]
      exact ⟨trivial, h1, h2, h3, fun v hv => (Option.some.inj hv).symm,
        h5, h6, h7, h8, h9, h10, h11⟩

theorem cachedTopCenter_spec (r : Ramp) (s : RampCache) (hok : CacheOK r s) :
    (cachedTopCenter r s).1 = r.top_center ∧
    CacheOK r (cachedTopCenter r s).2 := by
  obtain ⟨h1, h2, h3, h4, h5, h6, h7, h8, h9, h10, h11⟩ := hok
  cases hs : s.cTop with
  | some v =>
      simp only [cachedTopCenter, hs]
      exact ⟨h5 v hs, h1, h2, h3, h4, h5, h6, h7, h8, h9, h10, h11⟩
  | none =>
      simp only [cachedTopCenter, hs]
      exact ⟨trivial, h1, h2, h3, h4, fun v hv => (Option.some.inj hv).symm,
        h6, h7, h8, h9, h10, h11⟩

theorem cachedBottomCenter_spec (r : Ramp) (s : RampCache)
    (hok : CacheOK r s) :
    (cachedBottomCenter r s).1 = r.bottom_center ∧
    CacheOK r (cachedBottomCenter r s).2 := by
  obtain ⟨h1, h2, h3, h4, h5, h6, h7, h8, h9, h10, h11⟩ := hok
  cases hs : s.cBottom with
  | some v =>
      simp only [cachedBottomCenter, hs]
      exact ⟨h6 v hs, h1, h2, h3, h4, h5, h6, h7, h8, h9, h10, h11⟩
  | none =>
      simp only [cachedBottomCenter, hs]
      exact ⟨trivial, h1, h2, h3, h4, h5, fun v hv => (Option.some.inj hv).symm,
        h7, h8, h9, h10, h11⟩

theorem cachedBarracksInMiddle_spec (r : Ramp) (s : RampCache)
    (hok : CacheOK r s) :
    (cachedBarracksInMiddle r s).1 = r.barracks_in_middle ∧
    CacheOK r (cachedBarracksInMiddle r s).2 := by
  obtain ⟨h1, h2, h3, h4, h5, h6, h7, h8, h9, h10, h11⟩ := hok
  cases hs : s.cBarracks with
  | some v =>
      simp only [cachedBarracksInMiddle, hs]
      exact ⟨h7 v hs, h1, h2, h3, h4, h5, h6, h7, h8, h9, h10, h11⟩
  | none =>
      simp only [cachedBarracksInMiddle, hs]
      exact ⟨trivial, h1, h2, h3, h4, h5, h6,
        fun v hv => (Option.some.inj hv).symm, h8, h9, h10, h11⟩

theorem cachedDepotInMiddle_spec (r : Ramp) (s : RampCache)
    (hok : CacheOK r s) :
    (cachedDepotInMiddle r s).1 = r.depot_in_middle ∧
    CacheOK r (cachedDepotInMiddle r s).2 := by
  obtain ⟨h1, h2, h3, h4, h5, h6, h7, h8, h9, h10, h11⟩ := hok
  cases hs : s.cDepot with
  | some v =>
      simp only [cachedDepotInMiddle, hs]
      exact ⟨h8 v hs, h1, h2, h3, h4, h5, h6, h7, h8, h9, h10, h11⟩
  | none =>
      simp only [cachedDepotInMiddle, hs]
      exact ⟨trivial, h1, h2, h3, h4, h5, h6, h7,
        fun v hv => (Option.some.inj hv).symm, h9, h10, h11⟩

theorem cachedCornerDepots_spec (r : Ramp) (s : RampCache)
    (hok : CacheOK r s) :
    (cachedCornerDepots r s).1 = r.corner_depots ∧
    CacheOK r (cachedCornerDepots r s).2 := by
  obtain ⟨h1, h2, h3, h4, h5, h6, h7, h8, h9, h10, h11⟩ := hok
  cases hs : s.cCorner with
  | some v =>
      simp only [cachedCornerDepots, hs]
      exact ⟨h9 v hs, h1, h2, h3, h4, h5, h6, h7, h8, h9, h10, h11⟩
  | none =>
      simp only [cachedCornerDepots, hs]
      exact ⟨trivial, h1, h2, h3, h4, h5, h6, h7, h8,
        fun v hv => (Option.some.inj hv).symm, h10, h11⟩

theorem cachedCanFitAddon_spec (r : Ramp) (s : RampCache)
    (hok : CacheOK r s) :
    (cachedCanFitAddon r s).1 = r.barracks_can_fit_addon ∧
    CacheOK r (cachedCanFitAddon r s).2 := by
  obtain ⟨h1, h2, h3, h4, h5, h6, h7, h8, h9, h10, h11⟩ := hok
  cases hs : s.cFit with
  | some v =>
      simp only [cachedCanFitAddon, hs]
      exact ⟨h10 v hs, h1, h2, h3, h4, h5, h6, h7, h8, h9, h10, h11⟩
  | none =>
      simp only [cachedCanFitAddon, hs]
      exact ⟨trivial, h1, h2, h3, h4, h5, h6, h7, h8, h9,
        fun v hv => (Option.some.inj hv).symm, h11⟩

theorem cachedCorrectPlacement_spec (r : Ramp) (s : RampCache)
    (hok : CacheOK r s) :
    (cachedCorrectPlacement r s).1 = r.barracks_correct_placement ∧
    CacheOK r (cachedCorrectPlacement r s).2 := by
  obtain ⟨h1, h2, h3, h4, h5, h6, h7, h8, h9, h10, h11⟩ := hok
  cases hs : s.cCorrect with
  | some v =>
      simp only [cachedCorrectPlacement, hs]
      exact ⟨h11 v hs, h1, h2, h3, h4, h5, h6, h7, h8, h9, h10, h11⟩
  | none =>
      simp only [cachedCorrectPlacement, hs]
      exact ⟨trivial, h1, h2, h3, h4, h5, h6, h7, h8, h9, h10,
        fun v hv => (Option.some.inj hv).symm⟩

theorem cached_triple {α : Type} (r : Ramp) (pureV : α)
    (f : RampCache → α × RampCache)
    (spec : ∀ s, CacheOK r s → (f s).1 = pureV ∧ CacheOK r (f s).2)
    (s : RampCache) (hok : CacheOK r s) :
    (f s).1 = pureV ∧ (f (f s).2).1 = (f s).1 ∧ CacheOK r (f s).2 := by
  obtain ⟨hv, hok'⟩ := spec s hok
  obtain ⟨hv', _⟩ := spec (f s).2 hok'
  exact ⟨hv, by rw [hv, hv'], hok'⟩

/-- C9.  From any consistent cache state, every derived-geometry accessor
returns the pure derived value of the ramp, a repeated call returns the
same value, and the cache stays consistent — so results are idempotent and
cannot be changed by a caller mutating a previously returned copy (the
accessor's output never feeds back into the state). -/
theorem claimC9 (r : Ramp) (s : RampCache) (hok : CacheOK r s) :
    ((cachedPoints r s).1 = r.points ∧
      (cachedPoints r (cachedPoints r s).2).1 = (cachedPoints r s).1 ∧
      CacheOK r (cachedPoints r s).2) ∧
    ((cachedUpper r s).1 = r.upper ∧
      (cachedUpper r (cachedUpper r s).2).1 = (cachedUpper r s).1 ∧
      CacheOK r (cachedUpper r s).2) ∧
    ((cachedLower r s).1 = r.lower ∧
      (cachedLower r (cachedLower r s).2).1 = (cachedLower r s).1 ∧
      CacheOK r (cachedLower r s).2) ∧
    ((cachedUpper2 r s).1 = r.upper2_for_ramp_wall ∧
      (cachedUpper2 r (cachedUpper2 r s).2).1 = (cachedUpper2 r s).1 ∧
      CacheOK r (cachedUpper2 r s).2) ∧
    ((cachedTopCenter r s).1 = r.top_center ∧
      (cachedTopCenter r (cachedTopCenter r s).2).1
        = (cachedTopCenter r s).1 ∧
      CacheOK r (cachedTopCenter r s).2) ∧
    ((cachedBottomCenter r s).1 = r.bottom_center ∧
      (cachedBottomCenter r (cachedBottomCenter r s).2).1
        = (cachedBottomCenter r s).1 ∧
      CacheOK r (cachedBottomCenter r s).2) ∧
    ((cachedBarracksInMiddle r s).1 = r.barracks_in_middle ∧
      (cachedBarracksInMiddle r (cachedBarracksInMiddle r s).2).1
        = (cachedBarracksInMiddle r s).1 ∧
      CacheOK r (cachedBarracksInMiddle r s).2) ∧
    ((cachedDepotInMiddle r s).1 = r.depot_in_middle ∧
      (cachedDepotInMiddle r (cachedDepotInMiddle r s).2).1
        = (cachedDepotInMiddle r s).1 ∧
      CacheOK r (cachedDepotInMiddle r s).2) ∧
    ((cachedCornerDepots r s).1 = r.corner_depots ∧
      (cachedCornerDepots r (cachedCornerDepots r s).2).1
        = (cachedCornerDepots r s).1 ∧
      CacheOK r (cachedCornerDepots r s).2) ∧
    ((cachedCanFitAddon r s).1 = r.barracks_can_fit_addon ∧
      (cachedCanFitAddon r (cachedCanFitAddon r s).2).1
        = (cachedCanFitAddon r s).1 ∧
      CacheOK r (cachedCanFitAddon r s).2) ∧
    ((cachedCorrectPlacement r s).1 = r.barracks_correct_placement ∧
      (cachedCorrectPlacement r (cachedCorrectPlacement r s).2).1
        = (cachedCorrectPlacement r s).1 ∧
      CacheOK r (cachedCorrectPlacement r s).2) :=
  ⟨cached_triple r r.points (cachedPoints r)
      (fun s' h => cachedPoints_spec r s' h) s hok,
   cached_triple r r.upper (cachedUpper r)
      (fun s' h => cachedUpper_spec r s' h) s hok,
   cached_triple r r.lower (cachedLower r)
      (fun s' h => cachedLower_spec r s' h) s hok,
   cached_triple r r.upper2_for_ramp_wall (cachedUpper2 r)
      (fun s' h => cachedUpper2_spec r s' h) s hok,
   cached_triple r r.top_center (cachedTopCenter r)
      (fun s' h => cachedTopCenter_spec r s' h) s hok,
   cached_triple r r.bottom_center (cachedBottomCenter r)
      (fun s' h => cachedBottomCenter_spec r s' h) s hok,
   cached_triple r r.barracks_in_middle (cachedBarracksInMiddle r)
      (fun s' h => cachedBarracksInMiddle_spec r s' h) s hok,
   cached_triple r r.depot_in_middle (cachedDepotInMiddle r)
      (fun s' h => cachedDepotInMiddle_spec r s' h) s hok,
   cached_triple r r.corner_depots (cachedCornerDepots r)
      (fun s' h => cachedCornerDepots_spec r s' h) s hok,
   cached_triple r r.barracks_can_fit_addon (cachedCanFitAddon r)
      (fun s' h => cachedCanFitAddon_spec r s' h) s hok,
   cached_triple r r.barracks_correct_placement (cachedCorrectPlacement r)
      (fun s' h => cachedCorrectPlacement_spec r s' h) s hok⟩

/-- The empty cache is consistent for every ramp. -/
theorem emptyCache_ok (r : Ramp) : CacheOK r emptyCache := by
  refine ⟨?_, ?_, ?_, ?_, ?_, ?_, ?_, ?_, ?_, ?_, ?_⟩ <;>
    intro v hv <;> exact Option.noConfusion hv

/-- Witness for C9 at the concrete ramp `rampX`, starting from the empty
cache. -/
theorem claimC9_witness :
    ((cachedPoints rampX emptyCache).1 = rampX.points ∧
      (cachedPoints rampX (cachedPoints rampX emptyCache).2).1
        = (cachedPoints rampX emptyCache).1 ∧
      CacheOK rampX (cachedPoints rampX emptyCache).2) ∧
    ((cachedUpper rampX emptyCache).1 = rampX.upper ∧
      (cachedUpper rampX (cachedUpper rampX emptyCache).2).1
        = (cachedUpper rampX emptyCache).1 ∧
      CacheOK rampX (cachedUpper rampX emptyCache).2) ∧
    ((cachedLower rampX emptyCache).1 = rampX.lower ∧
      (cachedLower rampX (cachedLower rampX emptyCache).2).1
        = (cachedLower rampX emptyCache).1 ∧
      CacheOK rampX (cachedLower rampX emptyCache).2) ∧
    ((cachedUpper2 rampX emptyCache).1 = rampX.upper2_for_ramp_wall ∧
      (cachedUpper2 rampX (cachedUpper2 rampX emptyCache).2).1
        = (cachedUpper2 rampX emptyCache).1 ∧
      CacheOK rampX (cachedUpper2 rampX emptyCache).2) ∧
    ((cachedTopCenter rampX emptyCache).1 = rampX.top_center ∧
      (cachedTopCenter rampX (cachedTopCenter rampX emptyCache).2).1
        = (cachedTopCenter rampX emptyCache).1 ∧
      CacheOK rampX (cachedTopCenter rampX emptyCache).2) ∧
    ((cachedBottomCenter rampX emptyCache).1 = rampX.bottom_center ∧
      (cachedBottomCenter rampX (cachedBottomCenter rampX emptyCache).2).1
        = (cachedBottomCenter rampX emptyCache).1 ∧
      CacheOK rampX (cachedBottomCenter rampX emptyCache).2) ∧
    ((cachedBarracksInMiddle rampX emptyCache).1
        = rampX.barracks_in_middle ∧
      (cachedBarracksInMiddle rampX
          (cachedBarracksInMiddle rampX emptyCache).2).1
        = (cachedBarracksInMiddle rampX emptyCache).1 ∧
      CacheOK rampX (cachedBarracksInMiddle rampX emptyCache).2) ∧
    ((cachedDepotInMiddle rampX emptyCache).1 = rampX.depot_in_middle ∧
      (cachedDepotInMiddle rampX
          (cachedDepotInMiddle rampX emptyCache).2).1
        = (cachedDepotInMiddle rampX emptyCache).1 ∧
      CacheOK rampX (cachedDepotInMiddle rampX emptyCache).2) ∧
    ((cachedCornerDepots rampX emptyCache).1 = rampX.corner_depots ∧
      (cachedCornerDepots rampX
          (cachedCornerDepots rampX emptyCache).2).1
        = (cachedCornerDepots rampX emptyCache).1 ∧
      CacheOK rampX (cachedCornerDepots rampX emptyCache).2) ∧
    ((cachedCanFitAddon rampX emptyCache).1
        = rampX.barracks_can_fit_addon ∧
      (cachedCanFitAddon rampX (cachedCanFitAddon rampX emptyCache).2).1
        = (cachedCanFitAddon rampX emptyCache).1 ∧
      CacheOK rampX (cachedCanFitAddon rampX emptyCache).2) ∧
    ((cachedCorrectPlacement rampX emptyCache).1
        = rampX.barracks_correct_placement ∧
      (cachedCorrectPlacement rampX
          (cachedCorrectPlacement rampX emptyCache).2).1
        = (cachedCorrectPlacement rampX emptyCache).1 ∧
      CacheOK rampX (cachedCorrectPlacement rampX emptyCache).2) :=
  claimC9 rampX emptyCache (emptyCache_ok rampX)

end SC2
